import Mathlib

/-!
Verification of the lexlib text-scanning toolkit.

This file embeds the repository's UTF-8 chunk/char readers (`src/io/utf8.rs`)
and its scanners (`src/text/scanner.rs`, `src/text/scanner_lite.rs`) as
executable Lean definitions and proves the specified properties about them.

Bytes are modelled as `Nat` values below 256 where produced by encoding;
strings are modelled as `List Char` (codepoints) or `List Nat` (their UTF-8
bytes).
-/

/-- UTF-8 encoding of one Unicode scalar value (given as a raw `Nat`) as a
list of byte values.  Mirrors the standard UTF-8 encoder used by Rust's
`char::encode_utf8`. -/
def utf8EncodeNat (v : Nat) : List Nat :=
  if v < 0x80 then [v]
  else if v < 0x800 then [0xC0 + v / 0x40, 0x80 + v % 0x40]
  else if v < 0x10000 then
    [0xE0 + v / 0x1000, 0x80 + v / 0x40 % 0x40, 0x80 + v % 0x40]
  else
    [0xF0 + v / 0x40000, 0x80 + v / 0x1000 % 0x40, 0x80 + v / 0x40 % 0x40,
      0x80 + v % 0x40]

/-- UTF-8 encoding of a codepoint. -/
def utf8EncodeChar (c : Char) : List Nat :=
  utf8EncodeNat c.toNat

/-- UTF-8 encoding of a string (list of codepoints) as a byte list. -/
def utf8EncodeList (cs : List Char) : List Nat :=
  (cs.map utf8EncodeChar).flatten

/-- Decode one UTF-8 codepoint from the front of a byte list, returning the
scalar value and the number of bytes consumed.  Implements exactly the UTF-8
acceptance rules of Rust's `core::str` validation (rejecting overlong forms,
surrogates and values above U+10FFFF); returns `none` on an invalid or
incomplete sequence. -/
def utf8DecodeChar : List Nat → Option (Nat × Nat)
  | [] => none
  | b0 :: rest =>
    if b0 < 0x80 then some (b0, 1)
    else if b0 < 0xC2 then none
    else if b0 < 0xE0 then
      match rest with
      | b1 :: _ =>
        if 0x80 ≤ b1 ∧ b1 < 0xC0 then some ((b0 - 0xC0) * 0x40 + (b1 - 0x80), 2)
        else none
      | [] => none
    else if b0 < 0xF0 then
      match rest with
      | b1 :: b2 :: _ =>
        if (if b0 = 0xE0 then 0xA0 ≤ b1 ∧ b1 < 0xC0
            else if b0 = 0xED then 0x80 ≤ b1 ∧ b1 < 0xA0
            else 0x80 ≤ b1 ∧ b1 < 0xC0) ∧ 0x80 ≤ b2 ∧ b2 < 0xC0 then
          some ((b0 - 0xE0) * 0x1000 + (b1 - 0x80) * 0x40 + (b2 - 0x80), 3)
        else none
      | _ => none
    else if b0 < 0xF5 then
      match rest with
      | b1 :: b2 :: b3 :: _ =>
        if (if b0 = 0xF0 then 0x90 ≤ b1 ∧ b1 < 0xC0
            else if b0 = 0xF4 then 0x80 ≤ b1 ∧ b1 < 0x90
            else 0x80 ≤ b1 ∧ b1 < 0xC0) ∧ (0x80 ≤ b2 ∧ b2 < 0xC0) ∧
            0x80 ≤ b3 ∧ b3 < 0xC0 then
          some ((b0 - 0xF0) * 0x40000 + (b1 - 0x80) * 0x1000 +
            (b2 - 0x80) * 0x40 + (b3 - 0x80), 4)
        else none
      | _ => none
    else none

set_option maxRecDepth 4096

theorem utf8DecodeChar_bounds {l : List Nat} {v n : Nat}
    (h : utf8DecodeChar l = some (v, n)) : 0 < n ∧ n ≤ l.length := by
  cases l with
  | nil => simp [utf8DecodeChar] at h
  | cons b0 rest =>
    unfold utf8DecodeChar at h
    repeat' split at h
    all_goals cases h
    all_goals simp_all

/-- Length of the longest prefix of `l` that is valid UTF-8 (what Rust's
`utf8_chunks().next().valid().len()` computes for the first chunk). -/
def utf8PrefixLen (l : List Nat) : Nat :=
  match h : utf8DecodeChar l with
  | none => 0
  | some (_, n) => n + utf8PrefixLen (l.drop n)
termination_by l.length
decreasing_by
  have := utf8DecodeChar_bounds h
  simp [List.length_drop]
  omega

/-- Decode an entire byte list into codepoints, stopping at the first
invalid or incomplete sequence.  Models iteration with `str::Chars` over a
string built from the bytes. -/
def utf8DecodeAll (l : List Nat) : List Char :=
  match h : utf8DecodeChar l with
  | none => []
  | some (v, n) => Char.ofNat v :: utf8DecodeAll (l.drop n)
termination_by l.length
decreasing_by
  have := utf8DecodeChar_bounds h
  simp [List.length_drop]
  omega

theorem char_toNat_valid (c : Char) :
    c.toNat < 0xd800 ∨ 0xe000 ≤ c.toNat ∧ c.toNat < 0x110000 := c.valid

theorem char_toNat_lt (c : Char) : c.toNat < 0x110000 := by
  rcases char_toNat_valid c with h | h
  · omega
  · omega

theorem utf8EncodeNat_ne_nil (v : Nat) : utf8EncodeNat v ≠ [] := by
  unfold utf8EncodeNat
  repeat' split
  all_goals simp

theorem utf8EncodeNat_length_le (v : Nat) : (utf8EncodeNat v).length ≤ 4 := by
  unfold utf8EncodeNat
  repeat' split
  all_goals simp

/-- Decoding inverts encoding: a byte list that starts with the encoding of a
valid scalar value always decodes to exactly that scalar. -/
theorem utf8DecodeChar_encodeNat {v : Nat}
    (hv : v < 0xd800 ∨ 0xe000 ≤ v ∧ v < 0x110000) (rest : List Nat) :
    utf8DecodeChar (utf8EncodeNat v ++ rest) =
      some (v, (utf8EncodeNat v).length) := by
  have hlt : v < 0x110000 := by omega
  unfold utf8EncodeNat
  by_cases h1 : v < 0x80
  · rw [if_pos h1]
    simp only [List.cons_append, List.nil_append, utf8DecodeChar]
    rw [if_pos h1]
    simp
  · rw [if_neg h1]
    by_cases h2 : v < 0x800
    · rw [if_pos h2]
      simp only [List.cons_append, List.nil_append, utf8DecodeChar]
      rw [if_neg (by omega), if_neg (by omega), if_pos (by omega),
        if_pos (by omega)]
      simp
      omega
    · rw [if_neg h2]
      by_cases h3 : v < 0x10000
      · rw [if_pos h3]
        simp only [List.cons_append, List.nil_append, utf8DecodeChar]
        rw [if_neg (by omega), if_neg (by omega), if_neg (by omega),
          if_pos (by omega)]
        split
        · rw [if_pos (by omega)]
          simp
          omega
        · split
          all_goals rw [if_pos (by omega)]
          all_goals simp
          all_goals omega
      · rw [if_neg h3]
        simp only [List.cons_append, List.nil_append, utf8DecodeChar]
        rw [if_neg (by omega), if_neg (by omega), if_neg (by omega),
          if_neg (by omega), if_pos (by omega)]
        split
        · rw [if_pos (by omega)]
          simp
          omega
        · split
          all_goals rw [if_pos (by omega)]
          all_goals simp
          all_goals omega

theorem utf8DecodeChar_encode (c : Char) (rest : List Nat) :
    utf8DecodeChar (utf8EncodeChar c ++ rest) =
      some (c.toNat, (utf8EncodeChar c).length) :=
  utf8DecodeChar_encodeNat (char_toNat_valid c) rest

/-- Decoded values are valid scalars and the consumed bytes are exactly the
scalar's UTF-8 encoding. -/
theorem utf8DecodeChar_inv {l : List Nat} {v n : Nat}
    (h : utf8DecodeChar l = some (v, n)) :
    (v < 0xd800 ∨ 0xe000 ≤ v ∧ v < 0x110000) ∧
      utf8EncodeNat v ++ l.drop n = l ∧ (utf8EncodeNat v).length = n := by
  unfold utf8DecodeChar at h
  repeat' split at h
  all_goals cases h
  all_goals subst_vars
  all_goals refine ⟨by omega, ?_, ?_⟩
  all_goals unfold utf8EncodeNat
  all_goals repeat' split
  all_goals first
    | (exfalso; omega)
    | (simp <;> omega)

theorem utf8DecodeChar_one (b0 : Nat) (h : ¬ b0 < 0x80) :
    utf8DecodeChar [b0] = none := by
  simp only [utf8DecodeChar]
  rw [if_neg h]
  repeat' split
  all_goals rfl

theorem utf8DecodeChar_two (b0 b1 : Nat) (h : ¬ b0 < 0xE0) (h2 : ¬ b0 < 0x80) :
    utf8DecodeChar [b0, b1] = none := by
  simp only [utf8DecodeChar]
  rw [if_neg h2, if_neg (by omega), if_neg h]
  repeat' split
  all_goals rfl

theorem utf8DecodeChar_three (b0 b1 b2 : Nat) (h : ¬ b0 < 0xF0) :
    utf8DecodeChar [b0, b1, b2] = none := by
  simp only [utf8DecodeChar]
  rw [if_neg (by omega), if_neg (by omega), if_neg (by omega), if_neg h]
  repeat' split
  all_goals rfl

/-- A strict, non-empty front part of a single codepoint's encoding never
decodes: it is an incomplete sequence. -/
theorem utf8DecodeChar_take_encodeNat {v : Nat} (k : Nat)
    (hk0 : 0 < k) (hk : k < (utf8EncodeNat v).length) :
    utf8DecodeChar ((utf8EncodeNat v).take k) = none := by
  unfold utf8EncodeNat at hk ⊢
  by_cases h1 : v < 0x80
  · exfalso
    rw [if_pos h1] at hk
    simp at hk
    omega
  · rw [if_neg h1] at hk ⊢
    by_cases h2 : v < 0x800
    · rw [if_pos h2] at hk ⊢
      simp only [List.length_cons, List.length_nil] at hk
      interval_cases k
      · simp only [List.take_succ_cons, List.take_zero]
        exact utf8DecodeChar_one _ (by omega)
    · rw [if_neg h2] at hk ⊢
      by_cases h3 : v < 0x10000
      · rw [if_pos h3] at hk ⊢
        simp only [List.length_cons, List.length_nil] at hk
        interval_cases k
        · simp only [List.take_succ_cons, List.take_zero]
          exact utf8DecodeChar_one _ (by omega)
        · simp only [List.take_succ_cons, List.take_zero]
          exact utf8DecodeChar_two _ _ (by omega) (by omega)
      · rw [if_neg h3] at hk ⊢
        simp only [List.length_cons, List.length_nil] at hk
        interval_cases k
        · simp only [List.take_succ_cons, List.take_zero]
          exact utf8DecodeChar_one _ (by omega)
        · simp only [List.take_succ_cons, List.take_zero]
          exact utf8DecodeChar_two _ _ (by omega) (by omega)
        · simp only [List.take_succ_cons, List.take_zero]
          exact utf8DecodeChar_three _ _ _ (by omega)

theorem utf8PrefixLen_eq_zero {l : List Nat} (h : utf8DecodeChar l = none) :
    utf8PrefixLen l = 0 := by
  unfold utf8PrefixLen
  split
  · rfl
  · next heq => rw [h] at heq; cases heq

theorem utf8PrefixLen_eq_step {l : List Nat} {v n : Nat}
    (h : utf8DecodeChar l = some (v, n)) :
    utf8PrefixLen l = n + utf8PrefixLen (l.drop n) := by
  conv_lhs => rw [utf8PrefixLen]
  split
  · next heq => rw [h] at heq; cases heq
  · next heq => rw [h] at heq; cases heq; rfl

theorem utf8DecodeAll_eq_nil {l : List Nat} (h : utf8DecodeChar l = none) :
    utf8DecodeAll l = [] := by
  unfold utf8DecodeAll
  split
  · rfl
  · next heq => rw [h] at heq; cases heq

theorem utf8DecodeAll_eq_step {l : List Nat} {v n : Nat}
    (h : utf8DecodeChar l = some (v, n)) :
    utf8DecodeAll l = Char.ofNat v :: utf8DecodeAll (l.drop n) := by
  conv_lhs => rw [utf8DecodeAll]
  split
  · next heq => rw [h] at heq; cases heq
  · next heq => rw [h] at heq; cases heq; rfl

theorem utf8EncodeList_cons (c : Char) (cs : List Char) :
    utf8EncodeList (c :: cs) = utf8EncodeChar c ++ utf8EncodeList cs := by
  simp [utf8EncodeList]

/-- The longest valid front part of `valid bytes ++ undecodable tail` is
exactly the valid bytes. -/
theorem utf8PrefixLen_encodeList (cs : List Char) (t : List Nat)
    (ht : utf8DecodeChar t = none) :
    utf8PrefixLen (utf8EncodeList cs ++ t) = (utf8EncodeList cs).length := by
  induction cs with
  | nil =>
    simp only [utf8EncodeList, List.map_nil, List.flatten_nil, List.nil_append,
      List.length_nil]
    exact utf8PrefixLen_eq_zero ht
  | cons c cs ih =>
    rw [utf8EncodeList_cons, List.append_assoc,
      utf8PrefixLen_eq_step (utf8DecodeChar_encode c (utf8EncodeList cs ++ t)),
      List.drop_left, ih, List.length_append]

/-- Decoding inverts encoding on whole strings. -/
theorem utf8DecodeAll_encodeList (cs : List Char) :
    utf8DecodeAll (utf8EncodeList cs) = cs := by
  induction cs with
  | nil =>
    apply utf8DecodeAll_eq_nil
    simp [utf8EncodeList, utf8DecodeChar]
  | cons c cs ih =>
    rw [utf8EncodeList_cons,
      utf8DecodeAll_eq_step (utf8DecodeChar_encode c (utf8EncodeList cs)),
      List.drop_left, ih, Char.ofNat_toNat]

theorem char_toNat_ofNat {n : Nat}
    (h : n < 0xd800 ∨ 0xe000 ≤ n ∧ n < 0x110000) :
    (Char.ofNat n).toNat = n := by
  have h' : n.isValidChar := by
    unfold Nat.isValidChar
    omega
  rw [Char.ofNat, dif_pos h']
  rfl

theorem utf8PrefixLen_le (l : List Nat) : utf8PrefixLen l ≤ l.length := by
  generalize hn : l.length = n
  induction n using Nat.strong_induction_on generalizing l with
  | _ n ih =>
    subst hn
    cases h : utf8DecodeChar l with
    | none =>
      rw [utf8PrefixLen_eq_zero h]
      omega
    | some p =>
      obtain ⟨v, k⟩ := p
      rw [utf8PrefixLen_eq_step h]
      have hb := utf8DecodeChar_bounds h
      have hd := ih (l.drop k).length (by simp [List.length_drop]; omega)
        (l.drop k) rfl
      simp only [List.length_drop] at hd
      omega

/-- The bytes after the longest valid run never decode: `utf8PrefixLen` is
maximal. -/
theorem utf8DecodeChar_drop_prefixLen (l : List Nat) :
    utf8DecodeChar (l.drop (utf8PrefixLen l)) = none := by
  generalize hn : l.length = n
  induction n using Nat.strong_induction_on generalizing l with
  | _ n ih =>
    subst hn
    cases h : utf8DecodeChar l with
    | none =>
      rw [utf8PrefixLen_eq_zero h]
      simpa using h
    | some p =>
      obtain ⟨v, k⟩ := p
      rw [utf8PrefixLen_eq_step h]
      have hb := utf8DecodeChar_bounds h
      have hd := ih (l.drop k).length (by simp [List.length_drop]; omega)
        (l.drop k) rfl
      rw [List.drop_drop] at hd
      exact hd

/-- The longest valid run of a byte list is the encoding of some string. -/
theorem take_utf8PrefixLen_encodable (l : List Nat) :
    ∃ cs : List Char, l.take (utf8PrefixLen l) = utf8EncodeList cs := by
  generalize hn : l.length = n
  induction n using Nat.strong_induction_on generalizing l with
  | _ n ih =>
    subst hn
    cases h : utf8DecodeChar l with
    | none =>
      rw [utf8PrefixLen_eq_zero h]
      exact ⟨[], by simp [utf8EncodeList]⟩
    | some p =>
      obtain ⟨v, k⟩ := p
      rw [utf8PrefixLen_eq_step h]
      have hb := utf8DecodeChar_bounds h
      obtain ⟨hv, hsplit, hlen⟩ := utf8DecodeChar_inv h
      obtain ⟨cs, hcs⟩ := ih (l.drop k).length
        (by simp [List.length_drop]; omega) (l.drop k) rfl
      refine ⟨Char.ofNat v :: cs, ?_⟩
      rw [utf8EncodeList_cons, ← hcs]
      have henc : utf8EncodeChar (Char.ofNat v) = utf8EncodeNat v := by
        unfold utf8EncodeChar
        rw [char_toNat_ofNat hv]
      rw [henc]
      set r := l.drop k with hr
      have key : List.take (k + utf8PrefixLen r) (utf8EncodeNat v ++ r) =
          utf8EncodeNat v ++ List.take (utf8PrefixLen r) r := by
        rw [← hlen, List.take_append]
      rw [← hsplit]
      exact key

/-- Any front part of an encoded string splits into a run of whole encoded
codepoints followed by at most a strict front part of the next codepoint. -/
theorem encodeList_split {cs : List Char} {p : List Nat}
    (h : p <+: utf8EncodeList cs) :
    ∃ cs1 cs2 t, cs = cs1 ++ cs2 ∧ p = utf8EncodeList cs1 ++ t ∧
      (t = [] ∨ ∃ c cs3, cs2 = c :: cs3 ∧ t <+: utf8EncodeChar c ∧
        0 < t.length ∧ t.length < (utf8EncodeChar c).length) := by
  induction cs generalizing p with
  | nil =>
    refine ⟨[], [], [], rfl, ?_, Or.inl rfl⟩
    simp only [utf8EncodeList, List.map_nil, List.flatten_nil] at h ⊢
    simpa using List.prefix_nil.mp h
  | cons c cs ih =>
    rw [utf8EncodeList_cons] at h
    rcases List.prefix_or_prefix_of_prefix h ( List.prefix_append _ _)
      with hA | hB
    · by_cases hEq : p = utf8EncodeChar c
      · exact ⟨[c], cs, [], rfl,
          by simp [hEq, utf8EncodeList_cons, utf8EncodeList], Or.inl rfl⟩
      · by_cases hNil : p = []
        · exact ⟨[], c :: cs, [], rfl, by simp [hNil, utf8EncodeList],
            Or.inl rfl⟩
        · refine ⟨[], c :: cs, p, rfl, by simp [utf8EncodeList],
            Or.inr ⟨c, cs, rfl, hA, ?_, ?_⟩⟩
          · cases hp : p with
            | nil => exact absurd hp hNil
            | cons a as => simp
          · exact lt_of_le_of_ne hA.length_le
              (fun hl => hEq (hA.eq_of_length hl))
    · obtain ⟨p', rfl⟩ := hB
      have hp' : p' <+: utf8EncodeList cs := by
        obtain ⟨r, hr⟩ := h
        rw [List.append_assoc] at hr
        exact ⟨r, List.append_cancel_left hr⟩
      obtain ⟨cs1, cs2, t, hcs, hp, hd⟩ := ih hp'
      exact ⟨c :: cs1, cs2, t, by simp [hcs],
        by simp [utf8EncodeList_cons, hp], hd⟩

theorem utf8EncodeList_append (a b : List Char) :
    utf8EncodeList (a ++ b) = utf8EncodeList a ++ utf8EncodeList b := by
  simp [utf8EncodeList]

theorem utf8EncodeChar_eq_nat (c : Char) :
    utf8EncodeChar c = utf8EncodeNat c.toNat := rfl

/-- Full splitting fact for `read_chunk`: a front part `p` of encoded input
decomposes as whole codepoints plus an incomplete tail of at most 3 bytes,
and `utf8PrefixLen` finds exactly the whole-codepoint part. -/
theorem utf8PrefixLen_split {cs : List Char} {p : List Nat}
    (h : p <+: utf8EncodeList cs) :
    ∃ cs1 cs2 t, cs = cs1 ++ cs2 ∧ p = utf8EncodeList cs1 ++ t ∧
      utf8PrefixLen p = (utf8EncodeList cs1).length ∧ t.length ≤ 3 ∧
      (t ≠ [] → cs2 ≠ []) ∧ (p = utf8EncodeList cs → t = []) := by
  obtain ⟨cs1, cs2, t, hcs, hp, hd⟩ := encodeList_split h
  rcases hd with rfl | ⟨c, cs3, hcs2, hpre, hpos, hlt⟩
  · refine ⟨cs1, cs2, [], hcs, hp, ?_, by simp, by simp, fun _ => rfl⟩
    rw [hp, List.append_nil]
    have := utf8PrefixLen_encodeList cs1 [] (by simp [utf8DecodeChar])
    simpa using this
  · have ht : utf8DecodeChar t = none := by
      have hte : t = (utf8EncodeChar c).take t.length :=
        List.prefix_iff_eq_take.mp hpre
      rw [hte, utf8EncodeChar_eq_nat]
      exact utf8DecodeChar_take_encodeNat t.length hpos
        (by rw [← utf8EncodeChar_eq_nat]; exact hlt)
    have hlen4 : (utf8EncodeChar c).length ≤ 4 := by
      rw [utf8EncodeChar_eq_nat]
      exact utf8EncodeNat_length_le c.toNat
    refine ⟨cs1, cs2, t, hcs, hp, ?_, by omega, fun _ => by simp [hcs2], ?_⟩
    · rw [hp]
      exact utf8PrefixLen_encodeList cs1 t ht
    · intro hfull
      exfalso
      rw [hcs, utf8EncodeList_append, hp] at hfull
      have hteq : t = utf8EncodeList cs2 := List.append_cancel_left hfull
      rw [hcs2, utf8EncodeList_cons] at hteq
      have : (utf8EncodeChar c).length ≤ t.length := by
        rw [hteq]
        simp
      omega

/-- `u8::leading_ones` for a byte value (0–255). -/
def leadingOnes8 (b : Nat) : Nat :=
  if b < 0x80 then 0
  else if b < 0xC0 then 1
  else if b < 0xE0 then 2
  else if b < 0xF0 then 3
  else if b < 0xF8 then 4
  else if b < 0xFC then 5
  else if b < 0xFE then 6
  else if b < 0xFF then 7
  else 8

/-- `ScannerLite` from `src/text/scanner_lite.rs`: a pointer pair over an
in-memory string, modelled as byte offsets `start` and `endPos` into the
byte list `src` (the Rust field `end` is a Lean keyword, hence `endPos`). -/
structure ScannerLite where
  src : List Nat
  start : Nat
  endPos : Nat

/-- `ScannerLite::new`: spans the whole of `source_str`. -/
def ScannerLite.new (source_str : List Char) : ScannerLite :=
  ⟨utf8EncodeList source_str, 0, (utf8EncodeList source_str).length⟩

/-- `ScannerLite::remaining_len`: `end - start`. -/
def ScannerLite.remaining_len (s : ScannerLite) : Nat := s.endPos - s.start

/-- `ScannerLite::remaining_str` as its bytes: the slice `[start, end)`. -/
def ScannerLite.remaining_bytes (s : ScannerLite) : List Nat :=
  (s.src.drop s.start).take s.remaining_len

/-- `ScannerLite::is_done`. -/
def ScannerLite.is_done (s : ScannerLite) : Bool := s.start == s.endPos

/-- `ScannerLite::peek_byte`. -/
def ScannerLite.peek_byte (s : ScannerLite) : Option Nat :=
  if s.is_done then none else some (s.src.getD s.start 0)

/-- `ScannerLite::skip_bytes_unchecked`: `start := start.add(n)`. -/
def ScannerLite.skip_bytes_unchecked (s : ScannerLite) (n : Nat) : ScannerLite :=
  { s with start := s.start + n }

/-- `ScannerLite::expect_char_unchecked`: skip `expected.len_utf8()` bytes. -/
def ScannerLite.expect_char_unchecked (s : ScannerLite) (expected : Char) :
    ScannerLite :=
  s.skip_bytes_unchecked (utf8EncodeChar expected).length

/-- `ScannerLite::expect_char`: advance past `expected` only if the remaining
string starts with it. -/
def ScannerLite.expect_char (s : ScannerLite) (expected : Char) :
    Bool × ScannerLite :=
  if (utf8EncodeChar expected).isPrefixOf s.remaining_bytes then
    (true, s.expect_char_unchecked expected)
  else (false, s)

/-- `ScannerLite::expect_str_unchecked`: skip `expected.len()` bytes. -/
def ScannerLite.expect_str_unchecked (s : ScannerLite) (expected : List Char) :
    ScannerLite :=
  s.skip_bytes_unchecked (utf8EncodeList expected).length

/-- `ScannerLite::expect_str`: advance past `expected` only if the remaining
string starts with it. -/
def ScannerLite.expect_str (s : ScannerLite) (expected : List Char) :
    Bool × ScannerLite :=
  if (utf8EncodeList expected).isPrefixOf s.remaining_bytes then
    (true, s.expect_str_unchecked expected)
  else (false, s)

/-- `ScannerLite::next_char`: `str::Chars::next` over the remaining string —
decode one codepoint and advance past it; `None` when empty. -/
def ScannerLite.next_char (s : ScannerLite) : Option Char × ScannerLite :=
  match utf8DecodeChar s.remaining_bytes with
  | none => (none, s)
  | some (v, n) => (some (Char.ofNat v), { s with start := s.start + n })

/-- `ScannerLite::skip_char`: length of the next codepoint computed from its
leading byte (`<0x80` → 1, otherwise `leading_ones`). -/
def ScannerLite.skip_char (s : ScannerLite) : Bool × ScannerLite :=
  if s.start = s.endPos then (false, s)
  else
    let first_byte := s.src.getD s.start 0
    let len_utf8 := if first_byte < 128 then 1 else leadingOnes8 first_byte
    (true, s.skip_bytes_unchecked len_utf8)

/-- Repeatedly calling `next_char` until it reports `None`. -/
def ScannerLite.chars_from (s : ScannerLite) : List Char :=
  match h : s.next_char with
  | (none, _) => []
  | (some c, s') => c :: s'.chars_from
termination_by s.remaining_len
decreasing_by
  unfold ScannerLite.next_char at h
  split at h
  · simp at h
  · next v n heq =>
      injection h with h1 h2
      subst h2
      have hb := utf8DecodeChar_bounds heq
      simp only [ScannerLite.remaining_bytes, ScannerLite.remaining_len,
        List.length_take, List.length_drop] at hb ⊢
      omega

theorem ScannerLite_new_remaining (s : List Char) :
    (ScannerLite.new s).remaining_bytes = utf8EncodeList s := by
  simp [ScannerLite.new, ScannerLite.remaining_bytes, ScannerLite.remaining_len]

theorem ScannerLite_remaining_bytes_add (s : ScannerLite) (n : Nat) :
    ({ s with start := s.start + n } : ScannerLite).remaining_bytes =
      s.remaining_bytes.drop n := by
  simp only [ScannerLite.remaining_bytes, ScannerLite.remaining_len]
  rw [List.drop_take, List.drop_drop]
  congr 1
  omega

theorem chars_from_none {s : ScannerLite}
    (h : utf8DecodeChar s.remaining_bytes = none) : s.chars_from = [] := by
  conv_lhs => rw [ScannerLite.chars_from]
  split
  · rfl
  · next c s' hmatch =>
      unfold ScannerLite.next_char at hmatch
      rw [h] at hmatch
      simp at hmatch

theorem chars_from_some {s : ScannerLite} {v n : Nat}
    (h : utf8DecodeChar s.remaining_bytes = some (v, n)) :
    s.chars_from = Char.ofNat v ::
      ScannerLite.chars_from { s with start := s.start + n } := by
  conv_lhs => rw [ScannerLite.chars_from]
  split
  · next s1 hmatch =>
      unfold ScannerLite.next_char at hmatch
      rw [h] at hmatch
      simp at hmatch
  · next c s' hmatch =>
      unfold ScannerLite.next_char at hmatch
      rw [h] at hmatch
      injection hmatch with h1 h2
      injection h1 with h1
      subst h1
      subst h2
      rfl

theorem chars_from_decodeAll (s : ScannerLite) :
    s.chars_from = utf8DecodeAll s.remaining_bytes := by
  generalize hm : s.remaining_len = m
  induction m using Nat.strong_induction_on generalizing s with
  | _ m ih =>
    subst hm
    cases h : utf8DecodeChar s.remaining_bytes with
    | none => rw [chars_from_none h, utf8DecodeAll_eq_nil h]
    | some p =>
      obtain ⟨v, n⟩ := p
      rw [chars_from_some h, utf8DecodeAll_eq_step h,
        ← ScannerLite_remaining_bytes_add]
      have hb := utf8DecodeChar_bounds h
      have hlen : n ≤ s.remaining_len := by
        have h2 := hb.2
        simp only [ScannerLite.remaining_bytes, List.length_take,
          List.length_drop, ScannerLite.remaining_len] at h2 ⊢
        omega
      congr 1
      exact ih ({ s with start := s.start + n } : ScannerLite).remaining_len
        (by
          simp only [ScannerLite.remaining_len] at hlen ⊢
          omega) _ rfl

theorem leadingOnes8_encode_len (c : Char) :
    (if (utf8EncodeChar c).headD 0 < 128 then 1
     else leadingOnes8 ((utf8EncodeChar c).headD 0)) =
      (utf8EncodeChar c).length := by
  have hv := char_toNat_valid c
  have hlt := char_toNat_lt c
  rw [utf8EncodeChar_eq_nat]
  unfold utf8EncodeNat
  by_cases h1 : c.toNat < 0x80
  · rw [if_pos h1]
    simp only [List.headD_cons, List.length_cons, List.length_nil]
    rw [if_pos h1]
  · rw [if_neg h1]
    by_cases h2 : c.toNat < 0x800
    · rw [if_pos h2]
      simp only [List.headD_cons, List.length_cons, List.length_nil]
      rw [if_neg (by omega)]
      unfold leadingOnes8
      rw [if_neg (by omega), if_neg (by omega), if_pos (by omega)]
    · rw [if_neg h2]
      by_cases h3 : c.toNat < 0x10000
      · rw [if_pos h3]
        simp only [List.headD_cons, List.length_cons, List.length_nil]
        rw [if_neg (by omega)]
        unfold leadingOnes8
        rw [if_neg (by omega), if_neg (by omega), if_neg (by omega),
          if_pos (by omega)]
      · rw [if_neg h3]
        simp only [List.headD_cons, List.length_cons, List.length_nil]
        rw [if_neg (by omega)]
        unfold leadingOnes8
        rw [if_neg (by omega), if_neg (by omega), if_neg (by omega),
          if_neg (by omega), if_pos (by omega)]

/-- Rust's `char::is_whitespace`: the Unicode `White_Space` property. -/
def rustIsWhitespace (c : Char) : Bool :=
  (decide (0x09 ≤ c.toNat) && decide (c.toNat ≤ 0x0D)) ||
  c.toNat == 0x20 || c.toNat == 0x85 || c.toNat == 0xA0 || c.toNat == 0x1680 ||
  (decide (0x2000 ≤ c.toNat) && decide (c.toNat ≤ 0x200A)) ||
  c.toNat == 0x2028 || c.toNat == 0x2029 || c.toNat == 0x202F ||
  c.toNat == 0x205F || c.toNat == 0x3000

/-- `Scanner` from `src/text/scanner.rs`.  The `start`/`head` pointers are
modelled as the byte offset `head` from the start of the source string;
`peek` and `tail` mirror the peeked char and the iterator of the remaining
string after it. -/
structure Scanner where
  src : List Char
  head : Nat
  peek : Option Char
  tail : List Char
  line : Nat
  column : Nat

/-- `Scanner::new`: `tail = source_str.chars()` and `peek = tail.next()`. -/
def Scanner.new (source_str : List Char) : Scanner :=
  { src := source_str
    head := 0
    peek := source_str.head?
    tail := source_str.tail
    line := 1
    column := 1 }

/-- `Scanner::peek_char`. -/
def Scanner.peek_char (s : Scanner) : Option Char := s.peek

/-- `Scanner::position`: byte offset of `head` from the start. -/
def Scanner.position (s : Scanner) : Nat := s.head

/-- `Scanner::consume_char_unchecked`.  Callers guarantee `peek` is `Some`;
with `peek = none` the model leaves the scanner unchanged, a case no caller
reaches. -/
def Scanner.consume_char_unchecked (s : Scanner) : Scanner :=
  match s.peek with
  | none => s
  | some c =>
    { s with
      line := if c = '\n' then s.line + 1 else s.line
      column := if c = '\n' then 1 else s.column + 1
      head := s.head + (utf8EncodeChar c).length
      peek := s.tail.head?
      tail := s.tail.tail }

/-- Number of codepoints not yet consumed (the peeked one included). -/
def Scanner.rem (s : Scanner) : Nat :=
  (if s.peek.isSome then 1 else 0) + s.tail.length

theorem Scanner_rem_consume {s : Scanner} {c : Char} (h : s.peek = some c) :
    s.consume_char_unchecked.rem = s.tail.length := by
  cases ht : s.tail <;>
    simp [Scanner.rem, Scanner.consume_char_unchecked, h, ht] <;> omega

/-- `Scanner::take_char`. -/
def Scanner.take_char (s : Scanner) : Option Char × Scanner :=
  match s.peek_char with
  | none => (none, s)
  | some c => (some c, s.consume_char_unchecked)

/-- `Scanner::take_char_if`. -/
def Scanner.take_char_if (s : Scanner) (condition : Char → Bool) :
    Option Char × Scanner :=
  match s.peek with
  | some c =>
    if condition c then (some c, s.consume_char_unchecked) else (none, s)
  | none => (none, s)

/-- `Scanner::take_char_if_eq`. -/
def Scanner.take_char_if_eq (s : Scanner) (expected : Char) : Bool × Scanner :=
  if s.peek = some expected then (true, s.consume_char_unchecked)
  else (false, s)

/-- `Scanner::consume_line`: take chars until a newline has been consumed. -/
def Scanner.consume_line (s : Scanner) : Scanner :=
  match h : s.take_char with
  | (none, s') => s'
  | (some c, s') => if c = '\n' then s' else s'.consume_line
termination_by s.rem
decreasing_by
  unfold Scanner.take_char Scanner.peek_char at h
  cases hp : s.peek with
  | none =>
      rw [hp] at h
      simp at h
  | some c' =>
      rw [hp] at h
      injection h with h1 h2
      subst h2
      rw [Scanner_rem_consume hp]
      simp only [Scanner.rem, hp, Option.isSome_some, if_pos]
      omega

/-- `Scanner::consume_while`. -/
def Scanner.consume_while (s : Scanner) (condition : Char → Bool) : Scanner :=
  match h : s.peek with
  | some c =>
    if condition c then s.consume_char_unchecked.consume_while condition
    else s
  | none => s
termination_by s.rem
decreasing_by
  rw [Scanner_rem_consume h]
  simp only [Scanner.rem, h, Option.isSome_some, if_pos]
  omega

/-- `Scanner::consume_whitespace`. -/
def Scanner.consume_whitespace (s : Scanner) : Scanner :=
  s.consume_while rustIsWhitespace

/-- Codepoints already consumed. -/
def Scanner.consumed_chars (s : Scanner) : Nat := s.src.length - s.rem

/-- `Scanner::take_line`: the advanced scanner plus the consumed slice (as
codepoints; `slice_back_unchecked` slices the source between the old and new
positions). -/
def Scanner.take_line (s : Scanner) : List Char × Scanner :=
  let s' := s.consume_line
  ((s.src.drop s.consumed_chars).take (s'.consumed_chars - s.consumed_chars),
    s')

/-- `Scanner::take_while`. -/
def Scanner.take_while (s : Scanner) (predicate : Char → Bool) :
    List Char × Scanner :=
  let s' := s.consume_while predicate
  ((s.src.drop s.consumed_chars).take (s'.consumed_chars - s.consumed_chars),
    s')

/-- `Scanner::take_whitespace`. -/
def Scanner.take_whitespace (s : Scanner) : List Char × Scanner :=
  let s' := s.consume_whitespace
  ((s.src.drop s.consumed_chars).take (s'.consumed_chars - s.consumed_chars),
    s')

/-- Repeatedly calling `take_char` until it reports `None`. -/
def Scanner.take_chars (s : Scanner) : List Char :=
  match h : s.take_char with
  | (none, _) => []
  | (some c, s') => c :: s'.take_chars
termination_by s.rem
decreasing_by
  unfold Scanner.take_char Scanner.peek_char at h
  cases hp : s.peek with
  | none =>
      rw [hp] at h
      simp at h
  | some c' =>
      rw [hp] at h
      injection h with h1 h2
      subst h2
      rw [Scanner_rem_consume hp]
      simp only [Scanner.rem, hp, Option.isSome_some, if_pos]
      omega

theorem consume_line_of_none {s : Scanner} (h : s.peek = none) :
    s.consume_line = s := by
  conv_lhs => rw [Scanner.consume_line]
  split
  · next s' hm =>
      unfold Scanner.take_char Scanner.peek_char at hm
      rw [h] at hm
      injection hm with h1 h2
      exact h2.symm
  · next c s' hm =>
      unfold Scanner.take_char Scanner.peek_char at hm
      rw [h] at hm
      simp at hm

theorem consume_line_of_some {s : Scanner} {c : Char} (h : s.peek = some c) :
    s.consume_line =
      (if c = '\n' then s.consume_char_unchecked
       else s.consume_char_unchecked.consume_line) := by
  conv_lhs => rw [Scanner.consume_line]
  split
  · next s' hm =>
      unfold Scanner.take_char Scanner.peek_char at hm
      rw [h] at hm
      simp at hm
  · next c' s' hm =>
      unfold Scanner.take_char Scanner.peek_char at hm
      rw [h] at hm
      injection hm with h1 h2
      injection h1 with h1
      subst h1
      subst h2
      rfl

theorem consume_while_of_none {s : Scanner} (condition : Char → Bool)
    (h : s.peek = none) : s.consume_while condition = s := by
  conv_lhs => rw [Scanner.consume_while]
  split
  · next c hm => rw [h] at hm; cases hm
  · rfl

theorem consume_while_of_some {s : Scanner} {c : Char}
    (condition : Char → Bool) (h : s.peek = some c) :
    s.consume_while condition =
      (if condition c then s.consume_char_unchecked.consume_while condition
       else s) := by
  conv_lhs => rw [Scanner.consume_while]
  split
  · next c' hm =>
      rw [h] at hm
      injection hm with h1
      subst h1
      rfl
  · next hm => rw [h] at hm; cases hm

theorem take_chars_of_none {s : Scanner} (h : s.peek = none) :
    s.take_chars = [] := by
  conv_lhs => rw [Scanner.take_chars]
  split
  · rfl
  · next c s' hm =>
      unfold Scanner.take_char Scanner.peek_char at hm
      rw [h] at hm
      simp at hm

theorem take_chars_of_some {s : Scanner} {c : Char} (h : s.peek = some c) :
    s.take_chars = c :: s.consume_char_unchecked.take_chars := by
  conv_lhs => rw [Scanner.take_chars]
  split
  · next s' hm =>
      unfold Scanner.take_char Scanner.peek_char at hm
      rw [h] at hm
      simp at hm
  · next c' s' hm =>
      unfold Scanner.take_char Scanner.peek_char at hm
      rw [h] at hm
      injection hm with h1 h2
      injection h1 with h1
      subst h1
      subst h2
      rfl

/-- Newline count of a consumed run. -/
def countNL (l : List Char) : Nat := l.count '\n'

/-- Codepoints since the last newline (or since the start). -/
def sinceNL (l : List Char) : Nat :=
  (l.reverse.takeWhile (fun c => c != '\n')).length

theorem countNL_append_one (l : List Char) (c : Char) :
    countNL (l ++ [c]) = countNL l + (if c = '\n' then 1 else 0) := by
  unfold countNL
  by_cases hc : c = '\n'
  · subst hc
    simp [List.count_append]
  · simp [List.count_append, List.count_singleton, hc]

theorem sinceNL_append_one (l : List Char) (c : Char) :
    sinceNL (l ++ [c]) = if c = '\n' then 0 else sinceNL l + 1 := by
  unfold sinceNL
  rw [List.reverse_append]
  by_cases hc : c = '\n'
  · subst hc
    simp [List.takeWhile_cons]
  · simp [List.takeWhile_cons, hc]

/-- The state `Scanner` reaches after consuming the first `k` codepoints of
its source: the position-tracking invariant of claim C2. -/
def ScannerInv (s : Scanner) (k : Nat) : Prop :=
  k ≤ s.src.length ∧ s.peek = s.src[k]? ∧ s.tail = s.src.drop (k + 1) ∧
    s.line = 1 + countNL (s.src.take k) ∧
    s.column = 1 + sinceNL (s.src.take k)

theorem scannerInv_new (src : List Char) : ScannerInv (Scanner.new src) 0 := by
  unfold ScannerInv Scanner.new
  refine ⟨by simp, ?_, ?_, by simp [countNL], by simp [sinceNL]⟩
  · cases src <;> simp
  · cases src <;> simp

theorem scannerInv_consume {s : Scanner} {k : Nat} {c : Char}
    (hI : ScannerInv s k) (hp : s.peek = some c) :
    ScannerInv s.consume_char_unchecked (k + 1) := by
  obtain ⟨hk, hpeek, htail, hline, hcol⟩ := hI
  have hklt : k < s.src.length := by
    by_contra hge
    rw [hpeek, List.getElem?_eq_none (by omega)] at hp
    cases hp
  have hgetc : s.src[k]? = some c := by rw [← hpeek, hp]
  have htake : s.src.take (k + 1) = s.src.take k ++ [c] := by
    rw [List.take_succ, hgetc]
    rfl
  unfold Scanner.consume_char_unchecked
  rw [hp]
  refine ⟨by simpa using hklt, ?_, ?_, ?_, ?_⟩
  · simp only [htail]
    cases hd : s.src.drop (k + 1) with
    | nil =>
        have : s.src.length ≤ k + 1 := by
          have := congrArg List.length hd
          simp [List.length_drop] at this
          omega
        simp [List.getElem?_eq_none this]
    | cons a as =>
        have : s.src[k + 1]? = some a := by
          have := congrArg List.head? hd
          simpa [List.head?_drop] using this
        simp [this]
  · simp only [htail, List.tail_drop]
  · simp only [htake, countNL_append_one, hline]
    by_cases hc : c = '\n' <;> simp [hc] <;> omega
  · simp only [htake, sinceNL_append_one, hcol]
    by_cases hc : c = '\n' <;> simp [hc] <;> omega

theorem scanner_src_consume (s : Scanner) :
    s.consume_char_unchecked.src = s.src := by
  unfold Scanner.consume_char_unchecked
  split <;> rfl

theorem scannerInv_consume_line (s : Scanner) (k : Nat)
    (hI : ScannerInv s k) :
    s.consume_line.src = s.src ∧ ∃ k', ScannerInv s.consume_line k' := by
  generalize hm : s.rem = m
  induction m using Nat.strong_induction_on generalizing s k with
  | _ m ih =>
    subst hm
    cases hp : s.peek with
    | none => rw [consume_line_of_none hp]; exact ⟨rfl, k, hI⟩
    | some c =>
      rw [consume_line_of_some hp]
      by_cases hc : c = '\n'
      · rw [if_pos hc]
        exact ⟨scanner_src_consume s, k + 1, scannerInv_consume hI hp⟩
      · rw [if_neg hc]
        have hrem : s.consume_char_unchecked.rem < s.rem := by
          rw [Scanner_rem_consume hp]
          simp only [Scanner.rem, hp, Option.isSome_some, if_pos]
          omega
        obtain ⟨hsrc, k', hI'⟩ := ih s.consume_char_unchecked.rem hrem
          s.consume_char_unchecked (k + 1) (scannerInv_consume hI hp) rfl
        exact ⟨by rw [hsrc, scanner_src_consume], k', hI'⟩

theorem scannerInv_consume_while (s : Scanner) (condition : Char → Bool)
    (k : Nat) (hI : ScannerInv s k) :
    (s.consume_while condition).src = s.src ∧
      ∃ k', ScannerInv (s.consume_while condition) k' := by
  generalize hm : s.rem = m
  induction m using Nat.strong_induction_on generalizing s k with
  | _ m ih =>
    subst hm
    cases hp : s.peek with
    | none => rw [consume_while_of_none condition hp]; exact ⟨rfl, k, hI⟩
    | some c =>
      rw [consume_while_of_some condition hp]
      by_cases hc : condition c
      · rw [if_pos hc]
        have hrem : s.consume_char_unchecked.rem < s.rem := by
          rw [Scanner_rem_consume hp]
          simp only [Scanner.rem, hp, Option.isSome_some, if_pos]
          omega
        obtain ⟨hsrc, k', hI'⟩ := ih s.consume_char_unchecked.rem hrem
          s.consume_char_unchecked (k + 1) (scannerInv_consume hI hp) rfl
        exact ⟨by rw [hsrc, scanner_src_consume], k', hI'⟩
      · rw [if_neg hc]
        exact ⟨rfl, k, hI⟩

/-- The character-consuming `Scanner` operations named by claim C2. -/
inductive ScanOp where
  | takeChar : ScanOp
  | takeCharIf (condition : Char → Bool) : ScanOp
  | takeCharIfEq (expected : Char) : ScanOp
  | takeLine : ScanOp
  | takeWhile (condition : Char → Bool) : ScanOp
  | takeWhitespace : ScanOp

/-- Run one operation, keeping the advanced scanner. -/
def ScanOp.apply : ScanOp → Scanner → Scanner
  | .takeChar, s => s.take_char.2
  | .takeCharIf p, s => (s.take_char_if p).2
  | .takeCharIfEq c, s => (s.take_char_if_eq c).2
  | .takeLine, s => s.take_line.2
  | .takeWhile p, s => (s.take_while p).2
  | .takeWhitespace, s => s.take_whitespace.2

/-- Run a sequence of operations. -/
def applyScanOps (ops : List ScanOp) (s : Scanner) : Scanner :=
  ops.foldl (fun st op => op.apply st) s

theorem scannerInv_apply (op : ScanOp) (s : Scanner) (k : Nat)
    (hI : ScannerInv s k) :
    (op.apply s).src = s.src ∧ ∃ k', ScannerInv (op.apply s) k' := by
  cases op with
  | takeChar =>
    simp only [ScanOp.apply]
    unfold Scanner.take_char Scanner.peek_char
    cases hp : s.peek with
    | none => exact ⟨rfl, k, hI⟩
    | some c => exact ⟨scanner_src_consume s, k + 1, scannerInv_consume hI hp⟩
  | takeCharIf p =>
    simp only [ScanOp.apply]
    unfold Scanner.take_char_if
    cases hp : s.peek with
    | none => exact ⟨rfl, k, hI⟩
    | some c =>
      dsimp only
      by_cases hcond : p c
      · rw [if_pos hcond]
        exact ⟨scanner_src_consume s, k + 1, scannerInv_consume hI hp⟩
      · rw [if_neg hcond]
        exact ⟨rfl, k, hI⟩
  | takeCharIfEq c =>
    simp only [ScanOp.apply]
    unfold Scanner.take_char_if_eq
    by_cases hp : s.peek = some c
    · rw [if_pos hp]
      exact ⟨scanner_src_consume s, k + 1, scannerInv_consume hI hp⟩
    · rw [if_neg hp]
      exact ⟨rfl, k, hI⟩
  | takeLine =>
    simp only [ScanOp.apply]
    unfold Scanner.take_line
    exact scannerInv_consume_line s k hI
  | takeWhile p =>
    simp only [ScanOp.apply]
    unfold Scanner.take_while
    exact scannerInv_consume_while s p k hI
  | takeWhitespace =>
    simp only [ScanOp.apply]
    unfold Scanner.take_whitespace Scanner.consume_whitespace
    exact scannerInv_consume_while s rustIsWhitespace k hI

theorem scannerInv_applyScanOps (ops : List ScanOp) (s : Scanner) (k : Nat)
    (hI : ScannerInv s k) :
    (applyScanOps ops s).src = s.src ∧
      ∃ k', ScannerInv (applyScanOps ops s) k' := by
  induction ops generalizing s k with
  | nil => exact ⟨rfl, k, hI⟩
  | cons op ops ih =>
    simp only [applyScanOps, List.foldl_cons] at *
    obtain ⟨hsrc1, k1, hI1⟩ := scannerInv_apply op s k hI
    obtain ⟨hsrc2, k2, hI2⟩ := ih (op.apply s) k1 hI1
    exact ⟨by rw [hsrc2, hsrc1], k2, hI2⟩

theorem take_chars_drop (s : Scanner) (k : Nat)
    (hk : k ≤ s.src.length) (hpeek : s.peek = s.src[k]?)
    (htail : s.tail = s.src.drop (k + 1)) :
    s.take_chars = s.src.drop k := by
  generalize hm : s.rem = m
  induction m using Nat.strong_induction_on generalizing s k with
  | _ m ih =>
    subst hm
    cases hp : s.peek with
    | none =>
      rw [take_chars_of_none hp]
      rw [hp] at hpeek
      have : s.src.length ≤ k := by
        by_contra hlt
        rw [List.getElem?_eq_getElem (by omega)] at hpeek
        cases hpeek
      rw [List.drop_eq_nil_of_le this]
    | some c =>
      rw [take_chars_of_some hp]
      rw [hp] at hpeek
      have hklt : k < s.src.length := by
        by_contra hge
        rw [List.getElem?_eq_none (by omega)] at hpeek
        cases hpeek
      have hrem : s.consume_char_unchecked.rem < s.rem := by
        rw [Scanner_rem_consume hp]
        simp only [Scanner.rem, hp, Option.isSome_some, if_pos]
        omega
      have hrec := ih s.consume_char_unchecked.rem hrem
        s.consume_char_unchecked (k + 1)
      rw [scanner_src_consume] at hrec
      have hstep := hrec (by omega) ?_ ?_ rfl
      · rw [hstep]
        rw [List.drop_eq_getElem_cons hklt]
        have hg : s.src[k]? = some s.src[k] := List.getElem?_eq_getElem hklt
        rw [hg] at hpeek
        injection hpeek with hc
        rw [hc]
      · unfold Scanner.consume_char_unchecked
        rw [hp]
        simp only [htail]
        cases hd : s.src.drop (k + 1) with
        | nil =>
            have : s.src.length ≤ k + 1 := by
              have := congrArg List.length hd
              simp [List.length_drop] at this
              omega
            simp [List.getElem?_eq_none this]
        | cons a as =>
            have : s.src[k + 1]? = some a := by
              have := congrArg List.head? hd
              simpa [List.head?_drop] using this
            simp [this]
      · unfold Scanner.consume_char_unchecked
        rw [hp]
        simp only [htail, List.tail_drop]

/-- `io::ErrorKind`, reduced to what the reader distinguishes. -/
inductive ErrorKind where
  | interrupted : ErrorKind
  | invalidData : ErrorKind
  | other : Nat → ErrorKind
deriving DecidableEq

/-- An `io::Error` value: a kind plus a message. -/
structure IOError where
  kind : ErrorKind
  msg : String
deriving DecidableEq

/-- One fill call's behaviour of the Byte Source (`io::Read::read`): either
deliver up to `hint + 1` of its next bytes (0 bytes exactly when the source
is exhausted), or return an error.  A schedule (list of events) together
with the undelivered data models an arbitrary well-behaved source; once the
schedule is exhausted the source delivers as much as fits on each call. -/
inductive FillEv where
  | give : Nat → FillEv
  | fail : IOError → FillEv

/-- No event in the schedule is a hard (non-retryable) error. -/
def NoHardFail (sched : List FillEv) : Prop :=
  ∀ e : IOError, FillEv.fail e ∈ sched → e.kind = ErrorKind.interrupted

/-- The fill loop of `Utf8ChunkReader::read_chunk`: read into
`buf[len, capacity)` until the buffer is full or a call returns 0 bytes;
retry on `Interrupted`; abort on any other error.  Returns the loop result
with the buffer content and remaining source state.  (The loop guard is
`len != buf.len()`; on every reachable state `len ≤ capacity`, where it
agrees with `capacity ≤ len` used here for termination.) -/
def read_chunk_fill (cap : Nat) (buf data : List Nat) (sched : List FillEv) :
    Except IOError Unit × List Nat × List Nat × List FillEv :=
  if cap ≤ buf.length then (.ok (), buf, data, sched)
  else
    match sched with
    | [] =>
      if data.length = 0 then (.ok (), buf, data, [])
      else
        read_chunk_fill cap (buf ++ data.take (cap - buf.length))
          (data.drop (cap - buf.length)) []
    | .give hint :: rest =>
      if min (hint + 1) (min (cap - buf.length) data.length) = 0 then
        (.ok (), buf, data, rest)
      else
        read_chunk_fill cap
          (buf ++ data.take (min (hint + 1) (min (cap - buf.length)
            data.length)))
          (data.drop (min (hint + 1) (min (cap - buf.length) data.length)))
          rest
    | .fail e :: rest =>
      if e.kind = .interrupted then read_chunk_fill cap buf data rest
      else (.error e, buf, data, rest)
termination_by sched.length + (cap - buf.length)
decreasing_by
  all_goals simp only [List.length_append, List.length_take, List.length_nil,
    List.length_cons]
  all_goals omega

/-- `Utf8ChunkReader` state: `buf` holds the `len` bytes currently stored in
the capacity-`cap` buffer (so `len = buf.length`); `len_utf8` counts the
leading bytes forming complete valid UTF-8 codepoints. -/
structure Utf8ChunkReader where
  cap : Nat
  buf : List Nat
  len_utf8 : Nat

/-- `Utf8ChunkReader::new` over a buffer of capacity `cap`. -/
def Utf8ChunkReader.new (cap : Nat) : Utf8ChunkReader := ⟨cap, [], 0⟩

/-- `Utf8ChunkReader::chunk`: the validated bytes `buf[..len_utf8]`. -/
def Utf8ChunkReader.chunk (r : Utf8ChunkReader) : List Nat :=
  r.buf.take r.len_utf8

/-- The invalid-encoding error `read_chunk` constructs. -/
def invalidDataError : IOError :=
  ⟨.invalidData, "stream did not contain valid UTF-8"⟩

/-- `Utf8ChunkReader::read_chunk`, threading the source state: move the
incomplete tail `buf[len_utf8, len)` to the front, fill, report end of
stream on an empty buffer, else validate and report. -/
def Utf8ChunkReader.read_chunk (r : Utf8ChunkReader) (data : List Nat)
    (sched : List FillEv) :
    Except IOError Bool × Utf8ChunkReader × List Nat × List FillEv :=
  match read_chunk_fill r.cap (r.buf.drop r.len_utf8) data sched with
  | (.error e, buf', data', sched') =>
      (.error e, ⟨r.cap, buf', 0⟩, data', sched')
  | (.ok _, buf', data', sched') =>
      if buf'.length = 0 then (.ok false, ⟨r.cap, buf', 0⟩, data', sched')
      else if utf8PrefixLen buf' = 0 then
        (.error invalidDataError, ⟨r.cap, buf', 0⟩, data', sched')
      else (.ok true, ⟨r.cap, buf', utf8PrefixLen buf'⟩, data', sched')

/-- `Utf8CharReader`: a chunk reader plus the `Chars` iterator over the
current chunk. -/
structure Utf8CharReader where
  reader : Utf8ChunkReader
  iter : List Char

/-- `Utf8CharReader::new`. -/
def Utf8CharReader.new (cap : Nat) : Utf8CharReader :=
  ⟨Utf8ChunkReader.new cap, []⟩

/-- `Utf8CharReader::read_char`.  The outer `Option` models the
`unwrap_unchecked` in the source: `none` would mean the unchecked extraction
of the first codepoint of a fresh chunk failed (undefined behaviour); the
theorems show that case is unreachable. -/
def Utf8CharReader.read_char (cr : Utf8CharReader) (data : List Nat)
    (sched : List FillEv) :
    Option (Except IOError (Option Char) × Utf8CharReader × List Nat ×
      List FillEv) :=
  match cr.iter with
  | c :: rest => some (.ok (some c), ⟨cr.reader, rest⟩, data, sched)
  | [] =>
    match cr.reader.read_chunk data sched with
    | (result, r', data', sched') =>
      match result with
      | .error e => some (.error e, ⟨r', utf8DecodeAll r'.chunk⟩, data',
          sched')
      | .ok true =>
        match utf8DecodeAll r'.chunk with
        | c :: rest => some (.ok (some c), ⟨r', rest⟩, data', sched')
        | [] => none
      | .ok false => some (.ok none, ⟨r', utf8DecodeAll r'.chunk⟩, data',
          sched')

theorem read_chunk_fill_eq (cap : Nat) (buf data : List Nat)
    (sched : List FillEv) :
    read_chunk_fill cap buf data sched =
      if cap ≤ buf.length then (.ok (), buf, data, sched)
      else
        match sched with
        | [] =>
          if data.length = 0 then (.ok (), buf, data, [])
          else
            read_chunk_fill cap (buf ++ data.take (cap - buf.length))
              (data.drop (cap - buf.length)) []
        | .give hint :: rest =>
          if min (hint + 1) (min (cap - buf.length) data.length) = 0 then
            (.ok (), buf, data, rest)
          else
            read_chunk_fill cap
              (buf ++ data.take (min (hint + 1) (min (cap - buf.length)
                data.length)))
              (data.drop (min (hint + 1) (min (cap - buf.length)
                data.length)))
              rest
        | .fail e :: rest =>
          if e.kind = .interrupted then read_chunk_fill cap buf data rest
          else (.error e, buf, data, rest) := by
  conv_lhs => rw [read_chunk_fill.eq_def]

/-- Structure of a fill-loop run: the loop appends some front part of the
source data to the buffer, never grows the buffer beyond the capacity, only
drops schedule events, and on success stops only because the buffer is full
or the data ran out. -/
theorem read_chunk_fill_shape (cap : Nat) (buf data : List Nat)
    (sched : List FillEv) :
    ∃ d k, d ≤ data.length ∧
      (read_chunk_fill cap buf data sched).2.1 = buf ++ data.take d ∧
      (read_chunk_fill cap buf data sched).2.2.1 = data.drop d ∧
      (read_chunk_fill cap buf data sched).2.2.2 = sched.drop k ∧
      (read_chunk_fill cap buf data sched).2.1.length ≤ max buf.length cap ∧
      ((read_chunk_fill cap buf data sched).1 = .ok () →
        cap ≤ (read_chunk_fill cap buf data sched).2.1.length ∨
          (read_chunk_fill cap buf data sched).2.2.1 = []) := by
  generalize hm : sched.length + (cap - buf.length) = m
  induction m using Nat.strong_induction_on generalizing buf data sched with
  | _ m ih =>
    subst hm
    rw [read_chunk_fill_eq]
    by_cases hfull : cap ≤ buf.length
    · rw [if_pos hfull]
      dsimp only
      refine ⟨0, 0, by omega, by simp, by simp, by simp, ?_, ?_⟩
      · omega
      · intro _
        exact Or.inl hfull
    · rw [if_neg hfull]
      cases sched with
      | nil =>
        dsimp only
        by_cases hdata : data.length = 0
        · rw [if_pos hdata]
          dsimp only
          refine ⟨0, 0, by omega, by simp, by simp, by simp, ?_, ?_⟩
          · omega
          · intro _
            refine Or.inr ?_
            simpa using List.eq_nil_of_length_eq_zero hdata
        · rw [if_neg hdata]
          have hmeas : (([] : List FillEv)).length +
              (cap - (buf ++ data.take (cap - buf.length)).length) <
              ([] : List FillEv).length + (cap - buf.length) := by
            simp only [List.length_nil, List.length_append, List.length_take]
            omega
          obtain ⟨d, k, hd, hbuf, hdata', hsched, hlen, hok⟩ :=
            ih _ hmeas (buf ++ data.take (cap - buf.length))
              (data.drop (cap - buf.length)) [] rfl
          have htk : data.take (cap - buf.length) =
              data.take (min (cap - buf.length) data.length) := by
            rcases le_or_lt (cap - buf.length) data.length with hle | hlt
            · rw [min_eq_left hle]
            · rw [min_eq_right (by omega),
                List.take_of_length_le (by omega), List.take_length]
          have hdr : data.drop (cap - buf.length) =
              data.drop (min (cap - buf.length) data.length) := by
            rcases le_or_lt (cap - buf.length) data.length with hle | hlt
            · rw [min_eq_left hle]
            · rw [min_eq_right (by omega),
                List.drop_eq_nil_of_le (by omega),
                List.drop_eq_nil_of_le (by omega)]
          refine ⟨min (cap - buf.length) data.length + d, k, ?_, ?_, ?_, ?_,
            ?_, ?_⟩
          · simp only [List.length_drop] at hd
            omega
          · rw [hbuf, List.append_assoc, List.take_add, htk, hdr]
          · rw [hdata', hdr, List.drop_drop]
          · rw [hsched]
          · simp only [List.length_append, List.length_take] at hlen
            omega
          · intro hres
            exact hok hres
      | cons ev rest =>
        cases ev with
        | give hint =>
          dsimp only
          by_cases hn : min (hint + 1) (min (cap - buf.length)
            data.length) = 0
          · rw [if_pos hn]
            dsimp only
            refine ⟨0, 1, by omega, by simp, by simp, by simp, ?_, ?_⟩
            · omega
            · intro _
              refine Or.inr ?_
              have hd0 : data.length = 0 := by omega
              simpa using List.eq_nil_of_length_eq_zero hd0
          · rw [if_neg hn]
            have hmeas : rest.length +
                (cap - (buf ++ data.take (min (hint + 1)
                  (min (cap - buf.length) data.length))).length) <
                (FillEv.give hint :: rest).length + (cap - buf.length) := by
              simp only [List.length_append, List.length_take,
                List.length_cons]
              omega
            obtain ⟨d, k, hd, hbuf, hdata', hsched, hlen, hok⟩ :=
              ih _ hmeas
                (buf ++ data.take (min (hint + 1) (min (cap - buf.length)
                  data.length)))
                (data.drop (min (hint + 1) (min (cap - buf.length)
                  data.length)))
                rest rfl
            refine ⟨min (hint + 1) (min (cap - buf.length) data.length) + d,
              k + 1, ?_, ?_, ?_, ?_, ?_, ?_⟩
            · simp only [List.length_drop] at hd
              omega
            · rw [hbuf, List.append_assoc, List.take_add]
            · rw [hdata', List.drop_drop]
            · rw [hsched]
              simp
            · simp only [List.length_append, List.length_take] at hlen
              omega
            · intro hres
              exact hok hres
        | fail e =>
          dsimp only
          by_cases hek : e.kind = ErrorKind.interrupted
          · rw [if_pos hek]
            have hmeas : rest.length + (cap - buf.length) <
                (FillEv.fail e :: rest).length + (cap - buf.length) := by
              simp only [List.length_cons]
              omega
            obtain ⟨d, k, hd, hbuf, hdata', hsched, hlen, hok⟩ :=
              ih _ hmeas buf data rest rfl
            refine ⟨d, k + 1, hd, hbuf, hdata', ?_, hlen, hok⟩
            rw [hsched]
            simp
          · rw [if_neg hek]
            dsimp only
            refine ⟨0, 1, by omega, by simp, by simp, by simp, ?_, ?_⟩
            · omega
            · intro hres
              cases hres

theorem noHardFail_tail {ev : FillEv} {rest : List FillEv}
    (h : NoHardFail (ev :: rest)) : NoHardFail rest :=
  fun e he => h e (List.mem_cons_of_mem _ he)

theorem noHardFail_drop {sched : List FillEv} (k : Nat)
    (h : NoHardFail sched) : NoHardFail (sched.drop k) :=
  fun e he => h e (List.mem_of_mem_drop he)

/-- With no hard error in the schedule, the fill loop always succeeds. -/
theorem read_chunk_fill_ok (cap : Nat) (buf data : List Nat)
    (sched : List FillEv) (h : NoHardFail sched) :
    (read_chunk_fill cap buf data sched).1 = .ok () := by
  generalize hm : sched.length + (cap - buf.length) = m
  induction m using Nat.strong_induction_on generalizing buf data sched with
  | _ m ih =>
    subst hm
    rw [read_chunk_fill_eq]
    by_cases hfull : cap ≤ buf.length
    · rw [if_pos hfull]
    · rw [if_neg hfull]
      cases sched with
      | nil =>
        dsimp only
        by_cases hdata : data.length = 0
        · rw [if_pos hdata]
        · rw [if_neg hdata]
          refine ih _ ?_ _ _ [] (fun e he => by cases he) rfl
          simp only [List.length_nil, List.length_append, List.length_take]
          omega
      | cons ev rest =>
        cases ev with
        | give hint =>
          dsimp only
          by_cases hn : min (hint + 1) (min (cap - buf.length)
            data.length) = 0
          · rw [if_pos hn]
          · rw [if_neg hn]
            refine ih _ ?_ _ _ rest (noHardFail_tail h) rfl
            simp only [List.length_append, List.length_take,
              List.length_cons]
            omega
        | fail e =>
          dsimp only
          have hek : e.kind = ErrorKind.interrupted :=
            h e (List.mem_cons_self _ _)
          rw [if_pos hek]
          refine ih _ ?_ _ _ rest (noHardFail_tail h) rfl
          simp only [List.length_cons]
          omega

theorem encodeList_length_zero {cs : List Char}
    (h : (utf8EncodeList cs).length = 0) : cs = [] := by
  cases cs with
  | nil => rfl
  | cons c cs =>
    rw [utf8EncodeList_cons] at h
    simp only [List.length_append] at h
    have := utf8EncodeNat_ne_nil c.toNat
    rw [← utf8EncodeChar_eq_nat] at this
    cases he : utf8EncodeChar c with
    | nil => exact absurd he this
    | cons b bs => rw [he] at h; simp at h

/-- A `read_chunk` call that reports data strictly shrinks the unconsumed
byte count (pending buffer tail plus undelivered source data). -/
theorem read_chunk_true_measure {r r' : Utf8ChunkReader}
    {data data' : List Nat} {sched sched' : List FillEv}
    (h : r.read_chunk data sched = (.ok true, r', data', sched')) :
    (r'.buf.length - r'.len_utf8) + data'.length <
      (r.buf.length - r.len_utf8) + data.length := by
  unfold Utf8ChunkReader.read_chunk at h
  rcases hrcf : read_chunk_fill r.cap (r.buf.drop r.len_utf8) data sched
    with ⟨res, buf2, data2, sched2⟩
  rw [hrcf] at h
  obtain ⟨d, k, hd, hbuf, hdata', hsched, hlen, hok⟩ :=
    read_chunk_fill_shape r.cap (r.buf.drop r.len_utf8) data sched
  rw [hrcf] at hbuf hdata' hsched hlen hok
  dsimp only at h hbuf hdata' hsched hlen hok
  cases res with
  | error e => simp at h
  | ok u =>
    dsimp only at h
    by_cases h0 : buf2.length = 0
    · rw [if_pos h0] at h
      simp at h
    · rw [if_neg h0] at h
      by_cases hlv : utf8PrefixLen buf2 = 0
      · rw [if_pos hlv] at h
        simp at h
      · rw [if_neg hlv] at h
        injection h with h1 h2
        injection h2 with h2 h3
        injection h3 with h3 h4
        subst h2
        subst h3
        subst h4
        subst hbuf
        subst hdata'
        have hple := utf8PrefixLen_le
          (r.buf.drop r.len_utf8 ++ data.take d)
        simp only [List.length_append, List.length_take, List.length_drop]
          at *
        omega

/-- Repeatedly calling `read_chunk` until it reports no data, collecting
every chunk; an error aborts. -/
def read_all_chunks (r : Utf8ChunkReader) (data : List Nat)
    (sched : List FillEv) : Except IOError (List (List Nat)) :=
  match h : r.read_chunk data sched with
  | (.error e, _, _, _) => .error e
  | (.ok false, _, _, _) => .ok []
  | (.ok true, r', data', sched') =>
    match read_all_chunks r' data' sched' with
    | .error e => .error e
    | .ok chunks => .ok (r'.chunk :: chunks)
termination_by (r.buf.length - r.len_utf8) + data.length
decreasing_by exact read_chunk_true_measure h

theorem read_all_chunks_of_error {r : Utf8ChunkReader} {data : List Nat}
    {sched : List FillEv} {e : IOError} {r' : Utf8ChunkReader}
    {data' : List Nat} {sched' : List FillEv}
    (h : r.read_chunk data sched = (.error e, r', data', sched')) :
    read_all_chunks r data sched = .error e := by
  conv_lhs => rw [read_all_chunks]
  split
  · next e2 a b c hm =>
      rw [h] at hm
      injection hm with h1 h2
      injection h1 with h1
      rw [h1]
  · next a b c hm => rw [h] at hm; simp at hm
  · next r2 d2 s2 hm => rw [h] at hm; simp at hm

theorem read_all_chunks_of_false {r : Utf8ChunkReader} {data : List Nat}
    {sched : List FillEv} {r' : Utf8ChunkReader}
    {data' : List Nat} {sched' : List FillEv}
    (h : r.read_chunk data sched = (.ok false, r', data', sched')) :
    read_all_chunks r data sched = .ok [] := by
  conv_lhs => rw [read_all_chunks]
  split
  · next e2 a b c hm => rw [h] at hm; simp at hm
  · rfl
  · next r2 d2 s2 hm => rw [h] at hm; simp at hm

theorem read_all_chunks_of_true {r : Utf8ChunkReader} {data : List Nat}
    {sched : List FillEv} {r' : Utf8ChunkReader}
    {data' : List Nat} {sched' : List FillEv}
    (h : r.read_chunk data sched = (.ok true, r', data', sched')) :
    read_all_chunks r data sched =
      (match read_all_chunks r' data' sched' with
       | .error e => .error e
       | .ok chunks => .ok (r'.chunk :: chunks)) := by
  conv_lhs => rw [read_all_chunks]
  split
  · next e2 a b c hm => rw [h] at hm; simp at hm
  · next a b c hm => rw [h] at hm; simp at hm
  · next r2 d2 s2 hm =>
      rw [h] at hm
      injection hm with h1 h2
      injection h2 with h2 h3
      injection h3 with h3 h4
      subst h2
      subst h3
      subst h4
      rfl

/-- Main induction for claim C1: from any reader state whose pending tail
plus undelivered data is exactly an encoded string, driving `read_chunk` to
completion returns chunks that are non-empty whole-codepoint runs and
concatenate to that string. -/
theorem read_all_chunks_spec (m : Nat) (cps : List Char)
    (r : Utf8ChunkReader) (data : List Nat) (sched : List FillEv)
    (hm : (r.buf.length - r.len_utf8) + data.length = m)
    (hcap : 4 ≤ r.cap) (hnf : NoHardFail sched)
    (hinv : r.buf.drop r.len_utf8 ++ data = utf8EncodeList cps) :
    ∃ chunks, read_all_chunks r data sched = .ok chunks ∧
      chunks.flatten = utf8EncodeList cps ∧
      ∀ ch ∈ chunks, ∃ cs : List Char, cs ≠ [] ∧ ch = utf8EncodeList cs := by
  induction m using Nat.strong_induction_on generalizing cps r data sched with
  | _ m ih =>
    subst hm
    rcases hrcf : read_chunk_fill r.cap (r.buf.drop r.len_utf8) data sched
      with ⟨res, buf2, data2, sched2⟩
    obtain ⟨d, k, hd, hbuf, hdata2, hsched2, hlen, hok⟩ :=
      read_chunk_fill_shape r.cap (r.buf.drop r.len_utf8) data sched
    rw [hrcf] at hbuf hdata2 hsched2 hlen hok
    dsimp only at hbuf hdata2 hsched2 hlen hok
    have hres : res = .ok () := by
      have := read_chunk_fill_ok r.cap (r.buf.drop r.len_utf8) data sched hnf
      rw [hrcf] at this
      exact this
    subst hres
    subst hbuf
    subst hdata2
    subst hsched2
    have hpre : r.buf.drop r.len_utf8 ++ data.take d <+:
        utf8EncodeList cps := by
      refine ⟨data.drop d, ?_⟩
      rw [List.append_assoc, List.take_append_drop]
      exact hinv
    obtain ⟨cs1, cs2, t, hcs, hp, hplen, ht3, htne, hfullt⟩ :=
      utf8PrefixLen_split hpre
    by_cases h0 : (r.buf.drop r.len_utf8 ++ data.take d).length = 0
    · have hdat2 : data.drop d = [] := by
        rcases hok rfl with hc | hc
        · exfalso
          omega
        · exact hc
      have hrc : r.read_chunk data sched = (.ok false,
          ⟨r.cap, r.buf.drop r.len_utf8 ++ data.take d, 0⟩,
          data.drop d, sched.drop k) := by
        unfold Utf8ChunkReader.read_chunk
        rw [hrcf]
        dsimp only
        rw [if_pos h0]
      refine ⟨[], read_all_chunks_of_false hrc, ?_, by simp⟩
      simp only [List.length_append] at h0
      have htail0 : r.buf.drop r.len_utf8 = [] :=
        List.eq_nil_of_length_eq_zero (by omega)
      have htake0 : data.take d = [] :=
        List.eq_nil_of_length_eq_zero (by omega)
      have hdata0 : data = [] := by
        have hsplitd := List.take_append_drop d data
        rw [htake0, hdat2] at hsplitd
        simpa using hsplitd.symm
      rw [← hinv, htail0, hdata0]
      simp
    · have hlv : utf8PrefixLen (r.buf.drop r.len_utf8 ++ data.take d) ≠ 0 :=
        by
        rw [hplen]
        intro hz
        have hcs1 : cs1 = [] := encodeList_length_zero hz
        subst hcs1
        rw [show utf8EncodeList [] = [] from rfl, List.nil_append] at hp
        rcases hok rfl with hc | hc
        · rw [hp] at hc
          omega
        · have hfull2 : r.buf.drop r.len_utf8 ++ data.take d =
              utf8EncodeList cps := by
            have hsplitd := List.take_append_drop d data
            rw [hc, List.append_nil] at hsplitd
            rw [← hinv, hsplitd]
          have ht0 : t = [] := hfullt hfull2
          apply h0
          rw [hp, ht0]
          rfl
      have hrc : r.read_chunk data sched = (.ok true,
          ⟨r.cap, r.buf.drop r.len_utf8 ++ data.take d,
            utf8PrefixLen (r.buf.drop r.len_utf8 ++ data.take d)⟩,
          data.drop d, sched.drop k) := by
        unfold Utf8ChunkReader.read_chunk
        rw [hrcf]
        dsimp only
        rw [if_neg h0, if_neg hlv]
      have hchunk : (⟨r.cap, r.buf.drop r.len_utf8 ++ data.take d,
          utf8PrefixLen (r.buf.drop r.len_utf8 ++ data.take d)⟩ :
            Utf8ChunkReader).chunk = utf8EncodeList cs1 := by
        unfold Utf8ChunkReader.chunk
        dsimp only
        rw [hplen, hp, List.take_left]
      have hinv' : (r.buf.drop r.len_utf8 ++ data.take d).drop
          (utf8PrefixLen (r.buf.drop r.len_utf8 ++ data.take d)) ++
          data.drop d = utf8EncodeList cs2 := by
        rw [hplen, hp, List.drop_left]
        have hx : utf8EncodeList cs1 ++ (t ++ data.drop d) =
            utf8EncodeList cs1 ++ utf8EncodeList cs2 := by
          rw [← List.append_assoc, ← hp, List.append_assoc,
            List.take_append_drop, hinv, hcs, utf8EncodeList_append]
        exact List.append_cancel_left hx
      have hcs1ne : cs1 ≠ [] := by
        intro hz
        subst hz
        exact hlv (by rw [hplen]; rfl)
      have hple := utf8PrefixLen_le (r.buf.drop r.len_utf8 ++ data.take d)
      have hmeas : ((r.buf.drop r.len_utf8 ++ data.take d).length -
          utf8PrefixLen (r.buf.drop r.len_utf8 ++ data.take d)) +
          (data.drop d).length <
          (r.buf.length - r.len_utf8) + data.length := by
        simp only [List.length_append, List.length_take, List.length_drop]
          at hple ⊢
        omega
      obtain ⟨chunks, hrn, hflat, hall⟩ :=
        ih _ hmeas cs2
          ⟨r.cap, r.buf.drop r.len_utf8 ++ data.take d,
            utf8PrefixLen (r.buf.drop r.len_utf8 ++ data.take d)⟩
          (data.drop d) (sched.drop k) rfl hcap (noHardFail_drop k hnf) hinv'
      refine ⟨utf8EncodeList cs1 :: chunks, ?_, ?_, ?_⟩
      · rw [read_all_chunks_of_true hrc, hrn, hchunk]
      · rw [List.flatten_cons, hflat, hcs, utf8EncodeList_append]
      · intro ch hch
        rcases List.mem_cons.mp hch with rfl | hmem
        · exact ⟨cs1, hcs1ne, rfl⟩
        · exact hall ch hmem

/-- A decode success only inspects the consumed bytes: taking any longer
front part decodes identically. -/
theorem utf8DecodeChar_take {l : List Nat} {v n : Nat} (m : Nat)
    (h : utf8DecodeChar l = some (v, n)) (hm : n ≤ m) :
    utf8DecodeChar (l.take m) = some (v, n) := by
  obtain ⟨hv, hsplit, hlen⟩ := utf8DecodeChar_inv h
  conv_lhs => rw [← hsplit]
  have hme : m = (utf8EncodeNat v).length + (m - n) := by omega
  rw [hme, List.take_append, utf8DecodeChar_encodeNat hv, hlen]

/-- A decode only inspects at most four bytes: appending after four or more
bytes changes nothing. -/
theorem utf8DecodeChar_append_len4 {l : List Nat} (ext : List Nat)
    (h : 4 ≤ l.length) : utf8DecodeChar (l ++ ext) = utf8DecodeChar l := by
  match l with
  | a :: b :: c :: d :: rest => simp only [utf8DecodeChar, List.cons_append]
  | [] => simp at h
  | [a] => simp at h
  | [a, b] => simp at h
  | [a, b, c] => simp at h

theorem utf8DecodeChar_of_prefixLen_zero {l : List Nat}
    (h : utf8PrefixLen l = 0) : utf8DecodeChar l = none := by
  cases hd : utf8DecodeChar l with
  | none => rfl
  | some p =>
    obtain ⟨v, n⟩ := p
    rw [utf8PrefixLen_eq_step hd] at h
    have := utf8DecodeChar_bounds hd
    omega

theorem utf8DecodeChar_cons_large {b0 : Nat} (bs : List Nat)
    (h : 0xF5 ≤ b0) : utf8DecodeChar (b0 :: bs) = none := by
  simp only [utf8DecodeChar]
  rw [if_neg (by omega), if_neg (by omega), if_neg (by omega),
    if_neg (by omega), if_neg (by omega)]

/-- C4: for every string, repeatedly calling `Scanner::take_char` (and
likewise `ScannerLite::next_char`) until it returns `None` yields exactly
the same sequence of codepoints, in the same order, as the string's own
naive character iteration. -/
theorem claim_C4_char_stream (s : List Char) :
    Scanner.take_chars (Scanner.new s) = s ∧
    ScannerLite.chars_from (ScannerLite.new s) = s := by
  constructor
  · have h := take_chars_drop (Scanner.new s) 0 (by simp [Scanner.new])
      (by simp [Scanner.new, List.head?_eq_getElem?])
      (by
        simp only [Scanner.new]
        cases s <;> simp)
    simpa using h
  · rw [chars_from_decodeAll, ScannerLite_new_remaining,
      utf8DecodeAll_encodeList]

/-- C6: `ScannerLite::skip_char` on a non-empty remaining string returns
`true` and advances `start` by exactly the encoded byte length of the first
codepoint, a length derived from the leading byte (`< 0x80` → 1 byte,
otherwise the count of its leading one bits); on an empty remaining string
it returns `false` and leaves the cursor unchanged. -/
theorem claim_C6_skip_char :
    (∀ (s : ScannerLite) (c : Char) (rest : List Nat),
      s.remaining_bytes = utf8EncodeChar c ++ rest →
      s.skip_char.1 = true ∧
      s.skip_char.2 =
        { s with start := s.start + (utf8EncodeChar c).length }) ∧
    (∀ s : ScannerLite, s.start = s.endPos → s.skip_char = (false, s)) := by
  constructor
  · intro s c rest hrem
    rcases henc : utf8EncodeChar c with _ | ⟨b0, bs⟩
    · exfalso
      rw [utf8EncodeChar_eq_nat] at henc
      exact utf8EncodeNat_ne_nil c.toNat henc
    · rw [henc] at hrem
      have hlen0 : 0 < s.remaining_len := by
        by_contra hle
        have hz : s.remaining_len = 0 := by omega
        unfold ScannerLite.remaining_bytes at hrem
        rw [hz] at hrem
        simp at hrem
      have hb0 : s.src[s.start]? = some b0 := by
        have h0 := congrArg (fun l => l[0]?) hrem
        simp only [ScannerLite.remaining_bytes, List.getElem?_take,
          List.getElem?_drop] at h0
        rw [if_pos hlen0] at h0
        simpa using h0
      have hne : s.start ≠ s.endPos := by
        unfold ScannerLite.remaining_len at hlen0
        omega
      have hlede := leadingOnes8_encode_len c
      rw [henc] at hlede
      simp only [List.headD_cons, List.length_cons] at hlede
      unfold ScannerLite.skip_char
      rw [if_neg hne]
      dsimp only
      rw [List.getD_eq_getElem?_getD, hb0]
      simp only [Option.getD_some]
      refine ⟨by trivial, ?_⟩
      unfold ScannerLite.skip_bytes_unchecked
      rw [hlede]
      simp
  · intro s h
    unfold ScannerLite.skip_char
    rw [if_pos h]

theorem claim_C6_witness :
    ((ScannerLite.new ['a']).skip_char.1 = true ∧
      (ScannerLite.new ['a']).skip_char.2 =
        { ScannerLite.new ['a'] with
            start := (ScannerLite.new ['a']).start +
              (utf8EncodeChar 'a').length }) ∧
    (ScannerLite.new []).skip_char = (false, ScannerLite.new []) :=
  ⟨claim_C6_skip_char.1 (ScannerLite.new ['a']) 'a' [] (by decide),
    claim_C6_skip_char.2 (ScannerLite.new []) (by decide)⟩

/-- C7: `expect_char`/`expect_str` return `true` and advance past exactly
the UTF-8 encoding of the literal iff the remaining string starts with the
literal; when they return `false` the cursor — start, end, remaining view
and remaining length — is unchanged. -/
theorem claim_C7_expect (s : ScannerLite) (c : Char) (lit : List Char) :
    ((s.expect_char c).1 = true ↔
      utf8EncodeChar c <+: s.remaining_bytes) ∧
    ((s.expect_char c).1 = true →
      (s.expect_char c).2 =
        { s with start := s.start + (utf8EncodeChar c).length }) ∧
    ((s.expect_char c).1 = false → (s.expect_char c).2 = s) ∧
    ((s.expect_str lit).1 = true ↔
      utf8EncodeList lit <+: s.remaining_bytes) ∧
    ((s.expect_str lit).1 = true →
      (s.expect_str lit).2 =
        { s with start := s.start + (utf8EncodeList lit).length }) ∧
    ((s.expect_str lit).1 = false → (s.expect_str lit).2 = s ∧
      (s.expect_str lit).2.remaining_bytes = s.remaining_bytes ∧
      (s.expect_str lit).2.remaining_len = s.remaining_len) := by
  unfold ScannerLite.expect_char ScannerLite.expect_str
    ScannerLite.expect_char_unchecked ScannerLite.expect_str_unchecked
    ScannerLite.skip_bytes_unchecked
  by_cases h1 : (utf8EncodeChar c).isPrefixOf s.remaining_bytes
  · rw [if_pos h1]
    by_cases h2 : (utf8EncodeList lit).isPrefixOf s.remaining_bytes
    · rw [if_pos h2]
      refine ⟨?_, fun _ => rfl, by simp, ?_, fun _ => rfl, by simp⟩
      · simp [ List.isPrefixOf_iff_prefix.mp h1]
      · simp [ List.isPrefixOf_iff_prefix.mp h2]
    · rw [if_neg h2]
      refine ⟨?_, fun _ => rfl, by simp, ?_, by simp, fun _ => ⟨rfl, rfl,
        rfl⟩⟩
      · simp [ List.isPrefixOf_iff_prefix.mp h1]
      · simp
        intro hpre
        exact h2 ( List.isPrefixOf_iff_prefix.mpr hpre)
  · rw [if_neg h1]
    by_cases h2 : (utf8EncodeList lit).isPrefixOf s.remaining_bytes
    · rw [if_pos h2]
      refine ⟨?_, by simp, fun _ => rfl, ?_, fun _ => rfl, by simp⟩
      · simp
        intro hpre
        exact h1 ( List.isPrefixOf_iff_prefix.mpr hpre)
      · simp [ List.isPrefixOf_iff_prefix.mp h2]
    · rw [if_neg h2]
      refine ⟨?_, by simp, fun _ => rfl, ?_, by simp, fun _ => ⟨rfl, rfl,
        rfl⟩⟩
      · simp
        intro hpre
        exact h1 ( List.isPrefixOf_iff_prefix.mpr hpre)
      · simp
        intro hpre
        exact h2 ( List.isPrefixOf_iff_prefix.mpr hpre)

theorem claim_C7_witness :
    ((ScannerLite.new ['a', 'b']).expect_char 'a').2 =
      { ScannerLite.new ['a', 'b'] with
          start := (ScannerLite.new ['a', 'b']).start +
            (utf8EncodeChar 'a').length } ∧
    ((ScannerLite.new ['a', 'b']).expect_str ['b']).2 =
      ScannerLite.new ['a', 'b'] := by
  have h := claim_C7_expect (ScannerLite.new ['a', 'b']) 'a' ['b']
  exact ⟨h.2.1 (by decide), (h.2.2.2.2.2 (by decide)).1⟩

/-- C5: inside `read_chunk`'s fill loop, a 0-byte read (exhausted source)
terminates the loop, an `Interrupted` error is retried immediately without
changing `len`, any other source error is returned verbatim with no further
fill calls, and otherwise the loop runs until the buffer is full (on
success the buffer is full or the source data is exhausted). -/
theorem claim_C5_fill_loop :
    (∀ (cap : Nat) (buf data : List Nat) (e : IOError) (rest : List FillEv),
      ¬ cap ≤ buf.length → e.kind ≠ ErrorKind.interrupted →
      read_chunk_fill cap buf data (.fail e :: rest) =
        (.error e, buf, data, rest)) ∧
    (∀ (cap : Nat) (buf data : List Nat) (e : IOError) (rest : List FillEv),
      ¬ cap ≤ buf.length → e.kind = ErrorKind.interrupted →
      read_chunk_fill cap buf data (.fail e :: rest) =
        read_chunk_fill cap buf data rest) ∧
    (∀ (cap : Nat) (buf : List Nat) (hint : Nat) (rest : List FillEv),
      ¬ cap ≤ buf.length →
      read_chunk_fill cap buf [] (.give hint :: rest) =
        (.ok (), buf, [], rest)) ∧
    (∀ (cap : Nat) (buf data buf' data' : List Nat)
      (sched sched' : List FillEv),
      read_chunk_fill cap buf data sched = (.ok (), buf', data', sched') →
      cap ≤ buf'.length ∨ data' = []) := by
  refine ⟨?_, ?_, ?_, ?_⟩
  · intro cap buf data e rest hfull he
    rw [read_chunk_fill_eq, if_neg hfull]
    dsimp only
    rw [if_neg he]
  · intro cap buf data e rest hfull he
    rw [read_chunk_fill_eq, if_neg hfull]
    dsimp only
    rw [if_pos he]
  · intro cap buf hint rest hfull
    rw [read_chunk_fill_eq, if_neg hfull]
    dsimp only
    rw [if_pos (by simp)]
  · intro cap buf data buf' data' sched sched' h
    obtain ⟨d, k, hd, hbuf, hdata', hsched, hlen, hok⟩ :=
      read_chunk_fill_shape cap buf data sched
    rw [h] at hok
    exact hok rfl

theorem claim_C5_witness :
    read_chunk_fill 4 [] [] [.fail ⟨.other 7, "boom"⟩] =
      (.error ⟨.other 7, "boom"⟩, [], [], []) ∧
    read_chunk_fill 4 [] [] [.fail ⟨.interrupted, "again"⟩] =
      read_chunk_fill 4 [] [] [] ∧
    read_chunk_fill 4 [] [] [.give 5] = (.ok (), [], [], []) ∧
    (4 ≤ ([] : List Nat).length ∨ ([] : List Nat) = []) := by
  have h := claim_C5_fill_loop
  refine ⟨h.1 4 [] [] ⟨.other 7, "boom"⟩ [] (by decide) (by decide),
    h.2.1 4 [] [] ⟨.interrupted, "again"⟩ [] (by decide) (by decide),
    h.2.2.1 4 [] 5 [] (by decide), ?_⟩
  refine h.2.2.2 4 [] [] [] [] [] [] ?_
  rw [read_chunk_fill_eq]
  simp

/-- C2: starting from `line() = 1`, `column() = 1`, after any sequence of
character-consuming scanner operations the consumed run of `k` newline
codepoints gives `line() = 1 + k`, and `column()` is 1 plus the number of
codepoints since the last newline (or since the start); consuming `'\n'`
increments `line` and resets `column` to 1, and consuming any other
codepoint increments `column` by 1, counting codepoints rather than
bytes. -/
theorem claim_C2_position_law :
    (∀ (src : List Char) (ops : List ScanOp),
      ∃ k, k ≤ src.length ∧
        (applyScanOps ops (Scanner.new src)).line =
          1 + countNL (src.take k) ∧
        (applyScanOps ops (Scanner.new src)).column =
          1 + sinceNL (src.take k)) ∧
    (∀ (s : Scanner) (c : Char), s.peek = some c →
      (c = '\n' → s.consume_char_unchecked.line = s.line + 1 ∧
        s.consume_char_unchecked.column = 1) ∧
      (c ≠ '\n' → s.consume_char_unchecked.line = s.line ∧
        s.consume_char_unchecked.column = s.column + 1)) := by
  constructor
  · intro src ops
    obtain ⟨hsrc, k', hI⟩ := scannerInv_applyScanOps ops (Scanner.new src) 0
      (scannerInv_new src)
    obtain ⟨hk, _, _, hline, hcol⟩ := hI
    rw [hsrc] at hk hline hcol
    simp only [Scanner.new] at hk hline hcol
    exact ⟨k', hk, hline, hcol⟩
  · intro s c hp
    unfold Scanner.consume_char_unchecked
    rw [hp]
    constructor
    · intro hc
      simp [hc]
    · intro hc
      simp [hc]

theorem claim_C2_witness :
    (∃ k, k ≤ (['a', '\n', 'b'] : List Char).length ∧
      (applyScanOps [ScanOp.takeChar, ScanOp.takeChar]
        (Scanner.new ['a', '\n', 'b'])).line =
        1 + countNL ((['a', '\n', 'b'] : List Char).take k) ∧
      (applyScanOps [ScanOp.takeChar, ScanOp.takeChar]
        (Scanner.new ['a', '\n', 'b'])).column =
        1 + sinceNL ((['a', '\n', 'b'] : List Char).take k)) ∧
    ((Scanner.new ['x']).consume_char_unchecked.line =
        (Scanner.new ['x']).line ∧
      (Scanner.new ['x']).consume_char_unchecked.column =
        (Scanner.new ['x']).column + 1) := by
  have h1 := claim_C2_position_law.1 ['a', '\n', 'b']
    [ScanOp.takeChar, ScanOp.takeChar]
  have h2 := (claim_C2_position_law.2 (Scanner.new ['x']) 'x'
    (by decide)).2 (by decide)
  exact ⟨h1, h2⟩

/-- C1: for every fully valid UTF-8 source, every buffer capacity of at
least 4 bytes and every split of the bytes across fill calls, driving
`read_chunk` until it reports no data yields chunks whose concatenation is
the whole input, each chunk non-empty valid UTF-8 ending on a codepoint
boundary (it is a whole-codepoint run). -/
theorem claim_C1_chunk_concat (cps : List Char) (cap : Nat)
    (sched : List FillEv) (hcap : 4 ≤ cap) (hnf : NoHardFail sched) :
    ∃ chunks,
      read_all_chunks (Utf8ChunkReader.new cap) (utf8EncodeList cps) sched =
        .ok chunks ∧
      chunks.flatten = utf8EncodeList cps ∧
      ∀ ch ∈ chunks, ch ≠ [] ∧ ∃ cs : List Char, cs ≠ [] ∧
        ch = utf8EncodeList cs := by
  obtain ⟨chunks, h1, h2, h3⟩ := read_all_chunks_spec
    ((Utf8ChunkReader.new cap).buf.length -
      (Utf8ChunkReader.new cap).len_utf8 + (utf8EncodeList cps).length)
    cps (Utf8ChunkReader.new cap) (utf8EncodeList cps) sched rfl hcap hnf
    (by simp [Utf8ChunkReader.new])
  refine ⟨chunks, h1, h2, ?_⟩
  intro ch hch
  obtain ⟨cs, hcsne, hche⟩ := h3 ch hch
  refine ⟨?_, cs, hcsne, hche⟩
  intro hnil
  rw [hnil] at hche
  exact hcsne (encodeList_length_zero (by rw [← hche]; rfl))

theorem claim_C1_witness :
    ∃ chunks,
      read_all_chunks (Utf8ChunkReader.new 4) (utf8EncodeList ['a', 'b'])
        [] = .ok chunks ∧
      chunks.flatten = utf8EncodeList ['a', 'b'] ∧
      ∀ ch ∈ chunks, ch ≠ [] ∧ ∃ cs : List Char, cs ≠ [] ∧
        ch = utf8EncodeList cs :=
  claim_C1_chunk_concat ['a', 'b'] 4 [] (by omega)
    (fun e he => absurd he (List.not_mem_nil _))

/-- C3: after a fill that completed without a source error, `read_chunk`
returns the invalid-data error exactly when the buffer is non-empty and its
longest valid UTF-8 prefix is empty; for a buffer holding at least 4 bytes
that situation means the content can never begin valid UTF-8 no matter what
follows; and a source whose first byte is `0xFF` makes the first
`read_chunk` report the invalid-encoding error rather than skip it. -/
theorem claim_C3_invalid_data :
    (∀ (r : Utf8ChunkReader) (data : List Nat) (sched : List FillEv)
      (buf' data' : List Nat) (sched' : List FillEv),
      read_chunk_fill r.cap (r.buf.drop r.len_utf8) data sched =
        (.ok (), buf', data', sched') →
      ((r.read_chunk data sched).1 = .error invalidDataError ↔
        buf' ≠ [] ∧ utf8PrefixLen buf' = 0)) ∧
    (∀ l : List Nat, 4 ≤ l.length →
      (utf8PrefixLen l = 0 ↔
        ∀ ext : List Nat, utf8DecodeChar (l ++ ext) = none)) ∧
    (∀ (cap : Nat) (rest : List Nat) (sched : List FillEv),
      0 < cap → NoHardFail sched →
      ((Utf8ChunkReader.new cap).read_chunk (0xFF :: rest) sched).1 =
        .error invalidDataError) := by
  refine ⟨?_, ?_, ?_⟩
  · intro r data sched buf' data' sched' h
    unfold Utf8ChunkReader.read_chunk
    rw [h]
    dsimp only
    by_cases h0 : buf'.length = 0
    · rw [if_pos h0]
      dsimp only
      constructor
      · intro hcon
        cases hcon
      · intro hc
        exact absurd (List.eq_nil_of_length_eq_zero h0) hc.1
    · rw [if_neg h0]
      by_cases hlv : utf8PrefixLen buf' = 0
      · rw [if_pos hlv]
        dsimp only
        exact ⟨fun _ => ⟨fun hnil => h0 (by rw [hnil]; rfl), hlv⟩,
          fun _ => rfl⟩
      · rw [if_neg hlv]
        dsimp only
        constructor
        · intro hcon
          cases hcon
        · intro hc
          exact absurd hc.2 hlv
  · intro l hl
    constructor
    · intro hz ext
      rw [utf8DecodeChar_append_len4 ext hl]
      exact utf8DecodeChar_of_prefixLen_zero hz
    · intro hall
      have h0 := hall []
      rw [List.append_nil] at h0
      exact utf8PrefixLen_eq_zero h0
  · intro cap rest sched hcap hnf
    have hres := read_chunk_fill_ok cap [] (0xFF :: rest) sched hnf
    rcases hrcf : read_chunk_fill cap [] (0xFF :: rest) sched
      with ⟨res, buf2, data2, sched2⟩
    rw [hrcf] at hres
    dsimp only at hres
    subst hres
    obtain ⟨d, k, hd, hbuf, hdata2, hsched2, hlen, hok⟩ :=
      read_chunk_fill_shape cap [] (0xFF :: rest) sched
    rw [hrcf] at hbuf hdata2 hsched2 hlen hok
    dsimp only at hbuf hdata2 hsched2 hlen hok
    simp only [List.nil_append] at hbuf
    have hd1 : 1 ≤ d := by
      by_contra hlt
      have hd0 : d = 0 := by omega
      subst hd0
      rcases hok rfl with hc | hc
      · rw [hbuf] at hc
        simp at hc
        omega
      · rw [hdata2] at hc
        simp at hc
    obtain ⟨d', rfl⟩ : ∃ d', d = d' + 1 := ⟨d - 1, by omega⟩
    rw [List.take_succ_cons] at hbuf
    have hdec : utf8DecodeChar buf2 = none := by
      rw [hbuf]
      exact utf8DecodeChar_cons_large (rest.take d') (by omega)
    have hlv : utf8PrefixLen buf2 = 0 := utf8PrefixLen_eq_zero hdec
    have hne : ¬ buf2.length = 0 := by
      rw [hbuf]
      simp
    unfold Utf8ChunkReader.read_chunk Utf8ChunkReader.new
    dsimp only
    rw [show List.drop 0 ([] : List Nat) = [] from rfl, hrcf]
    dsimp only
    rw [if_neg hne, if_pos hlv]

theorem claim_C3_witness :
    (((Utf8ChunkReader.new 4).read_chunk [0xFF] []).1 =
        .error invalidDataError ↔
      ([0xFF] : List Nat) ≠ [] ∧ utf8PrefixLen [0xFF] = 0) ∧
    (utf8PrefixLen [0xFF, 0, 0, 0] = 0 ↔
      ∀ ext : List Nat, utf8DecodeChar ([0xFF, 0, 0, 0] ++ ext) = none) ∧
    ((Utf8ChunkReader.new 4).read_chunk [0xFF] []).1 =
      .error invalidDataError := by
  have h := claim_C3_invalid_data
  refine ⟨?_, h.2.1 [0xFF, 0, 0, 0] (by decide), h.2.2 4 [] [] (by omega)
    (fun e he => absurd he (List.not_mem_nil _))⟩
  refine h.1 (Utf8ChunkReader.new 4) [0xFF] [] [0xFF] [] [] ?_
  simp [Utf8ChunkReader.new, read_chunk_fill_eq]

/-- C10: whenever a `read_chunk` call does not return `Ok(true)` — or no
call has happened yet — `chunk()` is the empty view; in particular on an
empty source the first `read_chunk` reports no data and `chunk()` is
empty. -/
theorem claim_C10_empty_chunk :
    (∀ cap : Nat, (Utf8ChunkReader.new cap).chunk = []) ∧
    (∀ (r : Utf8ChunkReader) (data : List Nat) (sched : List FillEv),
      (r.read_chunk data sched).1 ≠ .ok true →
      (r.read_chunk data sched).2.1.len_utf8 = 0 ∧
      (r.read_chunk data sched).2.1.chunk = []) ∧
    (∀ cap : Nat,
      ((Utf8ChunkReader.new cap).read_chunk [] []).1 = .ok false ∧
      ((Utf8ChunkReader.new cap).read_chunk [] []).2.1.chunk = []) := by
  refine ⟨fun cap => rfl, ?_, ?_⟩
  · intro r data sched hne
    unfold Utf8ChunkReader.read_chunk at hne ⊢
    rcases hrcf : read_chunk_fill r.cap (r.buf.drop r.len_utf8) data sched
      with ⟨res, buf2, data2, sched2⟩
    rw [hrcf] at hne
    cases res with
    | error e => exact ⟨rfl, rfl⟩
    | ok u =>
      dsimp only at hne ⊢
      by_cases h0 : buf2.length = 0
      · rw [if_pos h0]
        exact ⟨rfl, rfl⟩
      · rw [if_neg h0] at hne ⊢
        by_cases hlv : utf8PrefixLen buf2 = 0
        · rw [if_pos hlv]
          exact ⟨rfl, rfl⟩
        · rw [if_neg hlv] at hne
          exact absurd rfl hne
  · intro cap
    have hfill : read_chunk_fill cap (([] : List Nat).drop 0) [] [] =
        (.ok (), [], [], []) := by
      simp [read_chunk_fill_eq]
    unfold Utf8ChunkReader.read_chunk Utf8ChunkReader.new
    dsimp only
    rw [hfill]
    exact ⟨rfl, rfl⟩

theorem claim_C10_witness :
    ((Utf8ChunkReader.new 0).read_chunk [] []).2.1.len_utf8 = 0 ∧
    ((Utf8ChunkReader.new 0).read_chunk [] []).2.1.chunk = [] := by
  refine claim_C10_empty_chunk.2.1 (Utf8ChunkReader.new 0) [] [] ?_
  have hfill : read_chunk_fill 0 (([] : List Nat).drop 0) [] [] =
      (.ok (), [], [], []) := by
    simp [read_chunk_fill_eq]
  unfold Utf8ChunkReader.read_chunk Utf8ChunkReader.new
  dsimp only
  rw [hfill]
  simp

/-- After a `read_chunk` reporting data, the chunk decodes to a non-empty
codepoint list: `len_valid > 0` guarantees a first codepoint. -/
theorem read_chunk_true_decodeAll {r r' : Utf8ChunkReader}
    {data data' : List Nat} {sched sched' : List FillEv}
    (h : r.read_chunk data sched = (.ok true, r', data', sched')) :
    ∃ c cs, utf8DecodeAll r'.chunk = c :: cs := by
  unfold Utf8ChunkReader.read_chunk at h
  rcases hrcf : read_chunk_fill r.cap (r.buf.drop r.len_utf8) data sched
    with ⟨res, buf2, data2, sched2⟩
  rw [hrcf] at h
  cases res with
  | error e => simp at h
  | ok u =>
    dsimp only at h
    by_cases h0 : buf2.length = 0
    · rw [if_pos h0] at h
      simp at h
    · rw [if_neg h0] at h
      by_cases hlv : utf8PrefixLen buf2 = 0
      · rw [if_pos hlv] at h
        simp at h
      · rw [if_neg hlv] at h
        injection h with h1 h2
        injection h2 with h2 h3
        subst h2
        cases hd : utf8DecodeChar buf2 with
        | none => exact absurd (utf8PrefixLen_eq_zero hd) hlv
        | some p =>
          obtain ⟨v, n⟩ := p
          have hb := utf8DecodeChar_bounds hd
          have hstep := utf8PrefixLen_eq_step hd
          have hn : n ≤ utf8PrefixLen buf2 := by omega
          have hdt := utf8DecodeChar_take (utf8PrefixLen buf2) hd hn
          unfold Utf8ChunkReader.chunk
          dsimp only
          rw [utf8DecodeAll_eq_step hdt]
          exact ⟨_, _, rfl⟩

/-- C8: `read_char` first drains the current iterator; otherwise it calls
`read_chunk`, and when that reports data the fresh chunk always holds a
first codepoint (so the unchecked extraction cannot fail — the model's
undefined-behaviour outcome `none` is unreachable), returning it; on "no
data" it returns `None`; on error it propagates the error. -/
theorem claim_C8_read_char (cr : Utf8CharReader) (data : List Nat)
    (sched : List FillEv) :
    (cr.read_char data sched).isSome = true ∧
    (∀ c rest, cr.iter = c :: rest →
      cr.read_char data sched =
        some (.ok (some c), ⟨cr.reader, rest⟩, data, sched)) ∧
    (cr.iter = [] →
      (∀ e r' data' sched',
        cr.reader.read_chunk data sched = (.error e, r', data', sched') →
        cr.read_char data sched =
          some (.error e, ⟨r', utf8DecodeAll r'.chunk⟩, data', sched')) ∧
      (∀ r' data' sched',
        cr.reader.read_chunk data sched = (.ok false, r', data', sched') →
        cr.read_char data sched =
          some (.ok none, ⟨r', utf8DecodeAll r'.chunk⟩, data', sched')) ∧
      (∀ r' data' sched',
        cr.reader.read_chunk data sched = (.ok true, r', data', sched') →
        ∃ c cs, utf8DecodeAll r'.chunk = c :: cs ∧
          cr.read_char data sched =
            some (.ok (some c), ⟨r', cs⟩, data', sched'))) := by
  cases hiter : cr.iter with
  | cons c rest =>
    refine ⟨?_, ?_, ?_⟩
    · unfold Utf8CharReader.read_char
      rw [hiter]
      rfl
    · intro c' rest' hiter'
      injection hiter' with hc hr
      subst hc
      subst hr
      unfold Utf8CharReader.read_char
      rw [hiter]
    · intro hnil
      cases hnil
  | nil =>
    rcases hrc : cr.reader.read_chunk data sched
      with ⟨res, r', data2, sched2⟩
    have hread : cr.read_char data sched =
        (match res with
         | .error e => some (.error e, ⟨r', utf8DecodeAll r'.chunk⟩, data2,
             sched2)
         | .ok true =>
           (match utf8DecodeAll r'.chunk with
            | c :: rest => some (.ok (some c), ⟨r', rest⟩, data2, sched2)
            | [] => none)
         | .ok false => some (.ok none, ⟨r', utf8DecodeAll r'.chunk⟩, data2,
             sched2)) := by
      unfold Utf8CharReader.read_char
      rw [hiter]
      simp only [hrc]
      cases res with
      | error e => rfl
      | ok b => cases b <;> rfl
    refine ⟨?_, ?_, ?_⟩
    · rw [hread]
      cases res with
      | error e => rfl
      | ok b =>
        cases b with
        | false => rfl
        | true =>
          obtain ⟨c, cs, hdec⟩ := read_chunk_true_decodeAll hrc
          rw [hdec]
          rfl
    · intro c rest hiter'
      cases hiter'
    · intro _
      refine ⟨?_, ?_, ?_⟩
      · intro e r2 d2 s2 h2
        injection h2 with h1 h2
        injection h2 with h2 h3
        injection h3 with h3 h4
        subst h2
        subst h3
        subst h4
        subst h1
        rw [hread]
      · intro r2 d2 s2 h2
        injection h2 with h1 h2
        injection h2 with h2 h3
        injection h3 with h3 h4
        subst h2
        subst h3
        subst h4
        subst h1
        rw [hread]
      · intro r2 d2 s2 h2
        injection h2 with h1 h2
        injection h2 with h2 h3
        injection h3 with h3 h4
        subst h2
        subst h3
        subst h4
        subst h1
        obtain ⟨c, cs, hdec⟩ := read_chunk_true_decodeAll hrc
        refine ⟨c, cs, hdec, ?_⟩
        rw [hread, hdec]

theorem claim_C8_witness :
    (Utf8CharReader.read_char ⟨Utf8ChunkReader.new 4, ['x']⟩ [] []).isSome =
      true ∧
    Utf8CharReader.read_char ⟨Utf8ChunkReader.new 4, ['x']⟩ [] [] =
      some (.ok (some 'x'), ⟨Utf8ChunkReader.new 4, []⟩, [], []) := by
  have h := claim_C8_read_char ⟨Utf8ChunkReader.new 4, ['x']⟩ [] []
  exact ⟨h.1, h.2.1 'x' [] rfl⟩

/-- C9 (counterexample to the claim as stated): after a `read_chunk` call
that propagates a source I/O error, the region `[len_valid, len)` can hold a
complete valid codepoint — here the source delivers `"ab"` and then fails
hard, leaving `len_valid = 0` with buffer `"ab"`, whose region decodes the
codepoint `'a'`. -/
theorem claim_C9_counterexample :
    ((Utf8ChunkReader.new 4).read_chunk [97, 98]
      [.give 1, .fail ⟨.other 0, "disk error"⟩]).1 =
      .error ⟨.other 0, "disk error"⟩ ∧
    (((Utf8ChunkReader.new 4).read_chunk [97, 98]
      [.give 1, .fail ⟨.other 0, "disk error"⟩]).2.1).len_utf8 = 0 ∧
    utf8DecodeChar
      ((((Utf8ChunkReader.new 4).read_chunk [97, 98]
        [.give 1, .fail ⟨.other 0, "disk error"⟩]).2.1).buf.drop
        ((((Utf8ChunkReader.new 4).read_chunk [97, 98]
          [.give 1, .fail ⟨.other 0, "disk error"⟩]).2.1).len_utf8)) =
      some (97, 1) := by
  have hfill : read_chunk_fill 4 (([] : List Nat).drop 0) [97, 98]
      [.give 1, .fail ⟨.other 0, "disk error"⟩] =
      (.error ⟨.other 0, "disk error"⟩, [97, 98], [], []) := by
    simp [read_chunk_fill_eq]
  unfold Utf8ChunkReader.read_chunk Utf8ChunkReader.new
  dsimp only
  rw [hfill]
  exact ⟨rfl, rfl, by decide⟩

/-- C9 (amended): the fill-state invariant `0 ≤ len_valid ≤ len ≤ capacity`
holds initially and is preserved by every `read_chunk` call whatever it
returns, and `buffer[0, len_valid)` is always valid UTF-8; the guarantee
that `[len_valid, len)` starts with no complete codepoint (only an
incomplete or invalid trailing sequence) holds after every call whose fill
loop completed — i.e. after `Ok(true)`, `Ok(false)` and the reader's own
invalid-data error — but not necessarily after a propagated source I/O
error. -/
theorem claim_C9_invariant :
    (∀ cap : Nat, (Utf8ChunkReader.new cap).len_utf8 = 0 ∧
      (Utf8ChunkReader.new cap).buf.length = 0 ∧
      (Utf8ChunkReader.new cap).buf.length ≤ (Utf8ChunkReader.new cap).cap) ∧
    (∀ (r : Utf8ChunkReader) (data : List Nat) (sched : List FillEv),
      r.len_utf8 ≤ r.buf.length → r.buf.length ≤ r.cap →
      ((r.read_chunk data sched).2.1.len_utf8 ≤
          (r.read_chunk data sched).2.1.buf.length ∧
        (r.read_chunk data sched).2.1.buf.length ≤
          (r.read_chunk data sched).2.1.cap) ∧
      (∃ cs : List Char,
        (r.read_chunk data sched).2.1.chunk = utf8EncodeList cs) ∧
      ((read_chunk_fill r.cap (r.buf.drop r.len_utf8) data sched).1 =
          .ok () →
        utf8DecodeChar ((r.read_chunk data sched).2.1.buf.drop
          (r.read_chunk data sched).2.1.len_utf8) = none)) := by
  constructor
  · intro cap
    exact ⟨rfl, rfl, by simp [Utf8ChunkReader.new]⟩
  · intro r data sched hl1 hl2
    unfold Utf8ChunkReader.read_chunk
    rcases hrcf : read_chunk_fill r.cap (r.buf.drop r.len_utf8) data sched
      with ⟨res, buf2, data2, sched2⟩
    obtain ⟨d, k, hd, hbuf, hdata2, hsched2, hlen, hok⟩ :=
      read_chunk_fill_shape r.cap (r.buf.drop r.len_utf8) data sched
    rw [hrcf] at hbuf hdata2 hsched2 hlen hok
    dsimp only at hbuf hdata2 hsched2 hlen hok
    have hlen2 : buf2.length ≤ r.cap := by
      simp only [List.length_drop] at hlen
      omega
    cases res with
    | error e =>
      dsimp only
      refine ⟨⟨by simp, hlen2⟩, ⟨[], rfl⟩, ?_⟩
      intro hcon
      cases hcon
    | ok u =>
      dsimp only
      by_cases h0 : buf2.length = 0
      · rw [if_pos h0]
        dsimp only
        refine ⟨⟨by simp, hlen2⟩, ⟨[], rfl⟩, ?_⟩
        intro _
        rw [List.drop_zero, List.eq_nil_of_length_eq_zero h0]
        rfl
      · rw [if_neg h0]
        by_cases hlv : utf8PrefixLen buf2 = 0
        · rw [if_pos hlv]
          dsimp only
          refine ⟨⟨by simp, hlen2⟩, ⟨[], rfl⟩, ?_⟩
          intro _
          rw [List.drop_zero]
          exact utf8DecodeChar_of_prefixLen_zero hlv
        · rw [if_neg hlv]
          dsimp only
          refine ⟨⟨utf8PrefixLen_le buf2, hlen2⟩, ?_, ?_⟩
          · exact take_utf8PrefixLen_encodable buf2
          · intro _
            exact utf8DecodeChar_drop_prefixLen buf2

theorem claim_C9_witness :
    (((Utf8ChunkReader.new 4).read_chunk [] []).2.1.len_utf8 ≤
        ((Utf8ChunkReader.new 4).read_chunk [] []).2.1.buf.length ∧
      ((Utf8ChunkReader.new 4).read_chunk [] []).2.1.buf.length ≤
        ((Utf8ChunkReader.new 4).read_chunk [] []).2.1.cap) ∧
    (∃ cs : List Char,
      ((Utf8ChunkReader.new 4).read_chunk [] []).2.1.chunk =
        utf8EncodeList cs) ∧
    ((read_chunk_fill (Utf8ChunkReader.new 4).cap
        ((Utf8ChunkReader.new 4).buf.drop
          (Utf8ChunkReader.new 4).len_utf8) [] []).1 = .ok () →
      utf8DecodeChar (((Utf8ChunkReader.new 4).read_chunk [] []).2.1.buf.drop
        (((Utf8ChunkReader.new 4).read_chunk [] []).2.1.len_utf8)) =
        none) :=
  claim_C9_invariant.2 (Utf8ChunkReader.new 4) [] [] (by decide) (by decide)
